import Mathlib

/-!
Verification of the core of the terminal Wordle clone (src/main.py):
the guess evaluator color_guess (with its helper letter_freq), the
process-wide LETTER_STATUS map it mutates, and the round loop game.

Modelling conventions (shallow embedding):
* Python strings are lists of characters (already uppercase-normalized,
  as the program normalizes all inputs with .upper()).
* A Python dict is an association list; dictGet/dictSet model d[k]
  lookup (None when the key is missing, i.e. a KeyError) and d[k] = v
  assignment with dict insertion-order semantics.
* A rich.Text object carries a list of style spans.  For a board entry
  each position receives exactly one style, so the classification of a
  guess is a list of optional colors (green / yellow / gray standing
  for Correct / Present / Absent).  For a LETTER_STATUS entry all
  spans cover the whole text " X ", and rich renders the spans in list
  order with later spans painted over earlier ones, so the effective
  (rendered) status of a letter is the LAST span of its span list;
  Text.stylize appends a span and Text.stylize_before prepends one.
* Fallible operations (IndexError on s[i], KeyError on d[k]) are
  modelled in Option: none is an uncaught exception.
-/

set_option maxHeartbeats 1000000

namespace Wordle

/-- The three colors color_guess paints letters with: green = Correct
position, yellow = Present elsewhere, gray (no_style) = Absent. -/
inductive GuessColor where
  | green
  | yellow
  | gray
deriving DecidableEq

/-- WORD_LENGTH = 5 from src/main.py. -/
def WORD_LENGTH : Nat := 5

/-- TRIES_LIMIT = 6 from src/main.py. -/
def TRIES_LIMIT : Nat := 6

/-- The 26-letter uppercase alphabet over which LETTER_STATUS is built. -/
def ALPHABET : List Char := "ABCDEFGHIJKLMNOPQRSTUVWXYZ".toList

/-- Python dict lookup d[k]; none models a KeyError. -/
def dictGet {α : Type} : List (Char × α) → Char → Option α
  | [], _ => none
  | (k, v) :: d, c => if c = k then some v else dictGet d c

/-- Python dict assignment d[k] = v: overwrite the (first) existing
binding for k, or append a new binding at the end. -/
def dictSet {α : Type} : List (Char × α) → Char → α → List (Char × α)
  | [], k, v => [(k, v)]
  | (k', v') :: d, k, v => if k = k' then (k, v) :: d else (k', v') :: dictSet d k v

/-- letter_freq from src/main.py: fold over the string building the
letter → multiplicity dict. -/
def letter_freq (s : List Char) : List (Char × Nat) :=
  s.foldl (fun freqs letter =>
    match dictGet freqs letter with
    | some n => dictSet freqs letter (n + 1)
    | none => dictSet freqs letter 1) []

/-- The span list of one LETTER_STATUS entry (a rich.Text " X ").  The
rendered status of the letter is the last span (later spans paint over
earlier ones), or "unseen" for the empty list. -/
abbrev StatusSpans := List GuessColor

/-- The process-wide LETTER_STATUS dict of src/main.py. -/
abbrev LSDict := List (Char × StatusSpans)

/-- LETTER_STATUS at program start: one entry per uppercase letter,
each an unstyled Text (no spans). -/
def LETTER_STATUS_init : LSDict := ALPHABET.map (fun letter => (letter, []))

/-- LETTER_STATUS[letter].stylize(style): appends a span (painted over
all existing ones).  none models the KeyError on a missing letter. -/
def stylize (ls : LSDict) (letter : Char) (c : GuessColor) : Option LSDict :=
  match dictGet ls letter with
  | some spans => some (dictSet ls letter (spans ++ [c]))
  | none => none

/-- LETTER_STATUS[letter].stylize_before(style): prepends a span
(painted beneath all existing ones). -/
def stylize_before (ls : LSDict) (letter : Char) (c : GuessColor) : Option LSDict :=
  match dictGet ls letter with
  | some spans => some (dictSet ls letter (c :: spans))
  | none => none

/-- The mutable state of one color_guess call: the spans painted on
pretty_guess so far (one optional color per position), the remaining
wordle_freq dict, and the global LETTER_STATUS. -/
structure EvalSt where
  cls : List (Option GuessColor)
  freq : List (Char × Nat)
  ls : LSDict

/-- One iteration of the first loop of color_guess (green pass):
if guess[i] == wordle[i] and wordle_freq[letter] > 0, paint position i
green, stylize LETTER_STATUS[letter] green, decrement the budget. -/
def pass1Step (guess wordle : List Char) (i : Nat) (st : EvalSt) : Option EvalSt :=
  match guess[i]? with
  | none => none
  | some letter =>
    match wordle[i]? with
    | none => none
    | some wletter =>
      if letter = wletter then
        match dictGet st.freq letter with
        | none => none
        | some n =>
          if n > 0 then
            match stylize st.ls letter .green with
            | none => none
            | some ls' => some ⟨st.cls.set i (some .green), dictSet st.freq letter (n - 1), ls'⟩
          else
            some st
      else
        some st

/-- One iteration of the second loop of color_guess: skip positions
already green; otherwise paint yellow (letter in wordle with budget
left, decrementing it) or gray, and stylize_before the letter's
LETTER_STATUS entry likewise. -/
def pass2Step (guess wordle : List Char) (i : Nat) (st : EvalSt) : Option EvalSt :=
  if st.cls[i]? = some (some .green) then
    some st
  else
    match guess[i]? with
    | none => none
    | some letter =>
      if letter ∈ wordle then
        match dictGet st.freq letter with
        | none => none
        | some n =>
          if n > 0 then
            match stylize_before st.ls letter .yellow with
            | none => none
            | some ls' => some ⟨st.cls.set i (some .yellow), dictSet st.freq letter (n - 1), ls'⟩
          else
            match stylize_before st.ls letter .gray with
            | none => none
            | some ls' => some ⟨st.cls.set i (some .gray), st.freq, ls'⟩
      else
        match stylize_before st.ls letter .gray with
        | none => none
        | some ls' => some ⟨st.cls.set i (some .gray), st.freq, ls'⟩

/-- for i in range(k, k + n): the loop body may raise (none). -/
def loopFrom {σ : Type} (step : Nat → σ → Option σ) : Nat → Nat → σ → Option σ
  | _, 0, st => some st
  | k, Nat.succ n, st =>
    match step k st with
    | none => none
    | some st' => loopFrom step (k + 1) n st'

/-- color_guess from src/main.py: build wordle_freq, run the green
pass then the yellow/gray pass over range(WORD_LENGTH), returning the
styled classification together with the mutated LETTER_STATUS. -/
def color_guess (guess wordle : List Char) (ls : LSDict) :
    Option (List (Option GuessColor) × LSDict) :=
  match loopFrom (pass1Step guess wordle) 0 WORD_LENGTH
      ⟨List.replicate WORD_LENGTH none, letter_freq wordle, ls⟩ with
  | none => none
  | some st1 =>
    match loopFrom (pass2Step guess wordle) 0 WORD_LENGTH st1 with
    | none => none
    | some st2 => some (st2.cls, st2.ls)

/-- The loop body of game: read the (already validated) guess for this
try, evaluate it (add_to_board calls color_guess, which mutates
LETTER_STATUS), return True on an exact match, otherwise continue
until TRIES_LIMIT tries are used up, then return False. -/
def gameLoop (wordle : List Char) (inputs : Nat → List Char) :
    Nat → Nat → LSDict → Option Bool
  | _, 0, _ => some false
  | tries, Nat.succ rem, ls =>
    let guess := inputs tries
    match color_guess guess wordle ls with
    | none => none
    | some (_, ls') =>
      if guess = wordle then some true
      else gameLoop wordle inputs (tries + 1) rem ls'

/-- game from src/main.py, with the external read_input provider
modelled as the stream of validated guesses it returns. -/
def game (wordle : List Char) (inputs : Nat → List Char) : Option Bool :=
  gameLoop wordle inputs 0 TRIES_LIMIT LETTER_STATUS_init

/-- Evaluating a sequence of guesses of one round against the secret,
threading the LETTER_STATUS state (the calls game makes, projected to
the letter-status effect). -/
def evalSeq (wordle : List Char) (guesses : List (List Char)) (ls : LSDict) : Option LSDict :=
  match guesses with
  | [] => some ls
  | g :: rest =>
    match color_guess g wordle ls with
    | none => none
    | some (_, ls') => evalSeq wordle rest ls'

/-- Rank of a rendered letter status in the order
Unseen < Absent (gray) < Present (yellow) < Correct (green). -/
def statusRank : Option GuessColor → Nat
  | none => 0
  | some .gray => 1
  | some .yellow => 2
  | some .green => 3

/-- Number of occurrences of letter c in the word w. -/
def occCount (w : List Char) (c : Char) : Nat := w.countP (fun a => decide (a = c))

/-- Number of positions of the guess holding letter c that the
classification paints with color k. -/
def countColor (g : List Char) (cls : List (Option GuessColor)) (c : Char) (k : GuessColor) : Nat :=
  (List.range WORD_LENGTH).countP (fun i => decide (g[i]? = some c ∧ cls[i]? = some (some k)))

/-- Position i is an exact match between guess and wordle. -/
def exactB (g w : List Char) (i : Nat) : Bool := decide (g[i]? = w[i]?) && (g[i]?).isSome

/-- Number of exact-match positions for letter c among the first k. -/
def greens (g w : List Char) (k : Nat) (c : Char) : Nat :=
  (List.range k).countP (fun j => exactB g w j && decide (g[j]? = some c))

/-- Total number of style spans stored in a LETTER_STATUS dict. -/
def spanCount (ls : LSDict) : Nat := (ls.map (fun p => p.2.length)).sum

/-- How one color_guess call may change one LETTER_STATUS entry: every
existing entry survives, a nonempty span list stays nonempty, and its
rendered (last) span either stays what it was or becomes green. -/
def lsEvolves (ls ls' : LSDict) : Prop :=
  ∀ c spans, dictGet ls c = some spans →
    ∃ spans', dictGet ls' c = some spans' ∧
      (spans ≠ [] → spans' ≠ [] ∧
        (spans'.getLast? = spans.getLast? ∨ spans'.getLast? = some GuessColor.green))

/-- Number of positions of the guess whose letter is c and that are
painted green or yellow (the classifications that consume budget). -/
def consumedCP (g : List Char) (cls : List (Option GuessColor)) (c : Char) : Nat :=
  countColor g cls c .green + countColor g cls c .yellow

/-- Invariant of the green pass after the first k loop iterations:
the budget of each letter of the wordle is its multiplicity minus the
exact matches already painted, positions before k are green exactly on
exact matches and later ones untouched, the LETTER_STATUS keys are
unchanged and one span was appended per green painted. -/
structure Pass1Inv (g w : List Char) (ls0 : LSDict) (k : Nat) (st : EvalSt) : Prop where
  freq_spec : ∀ c, dictGet st.freq c =
    if c ∈ w then some (occCount w c - greens g w k c) else none
  greens_le : ∀ c, greens g w k c ≤ occCount w c
  cls_len : st.cls.length = WORD_LENGTH
  cls_spec : ∀ i, i < WORD_LENGTH →
    st.cls[i]? = some (if exactB g w i && decide (i < k) then some GuessColor.green else none)
  ls_dom : ∀ c, (dictGet st.ls c).isSome = (dictGet ls0 c).isSome
  ls_count : spanCount st.ls = spanCount ls0 + (List.range k).countP (fun j => exactB g w j)

/-- Invariant of the second pass after the first j iterations. -/
structure Pass2Inv (g w : List Char) (ls0 : LSDict) (j : Nat) (st : EvalSt) : Prop where
  cls_len : st.cls.length = WORD_LENGTH
  freq_some : ∀ c, c ∈ w → ∃ n, dictGet st.freq c = some n ∧
    n + consumedCP g st.cls c = occCount w c
  freq_none : ∀ c, ¬ c ∈ w → dictGet st.freq c = none
  consumed_zero : ∀ c, ¬ c ∈ w → consumedCP g st.cls c = 0
  green_iff : ∀ i, i < WORD_LENGTH →
    (st.cls[i]? = some (some GuessColor.green) ↔ exactB g w i = true)
  unprocessed : ∀ i, j ≤ i → i < WORD_LENGTH →
    st.cls[i]? = some (if exactB g w i then some GuessColor.green else none)
  ls_dom : ∀ c, (dictGet st.ls c).isSome = (dictGet ls0 c).isSome
  ls_count : spanCount st.ls = spanCount ls0 +
    (List.range WORD_LENGTH).countP (fun i => exactB g w i) +
    (List.range j).countP (fun i => !(exactB g w i))

/-- Two evaluation states that agree on everything except the span
lists stored in LETTER_STATUS (whose key sets agree). -/
def stRel (s1 s2 : EvalSt) : Prop :=
  s1.cls = s2.cls ∧ s1.freq = s2.freq ∧
    ∀ x, (dictGet s1.ls x).isSome = (dictGet s2.ls x).isSome

/-! ### Association-list dictionary lemmas -/

theorem dictGet_dictSet {α : Type} (d : List (Char × α)) (k : Char) (v : α) (c : Char) :
    dictGet (dictSet d k v) c = if c = k then some v else dictGet d c := by
  induction d with
  | nil => simp [dictGet, dictSet]
  | cons p d ih =>
    obtain ⟨k', v'⟩ := p
    by_cases hk : k = k'
    · subst hk
      by_cases hc : c = k <;> simp [dictSet, dictGet, hc]
    · simp only [dictSet, if_neg hk]
      by_cases hc : c = k'
      · subst hc
        have : ¬ c = k := fun h => hk h.symm
        simp [dictGet, this]
      · simp [dictGet, hc, ih]

theorem letter_freq_aux (s : List Char) (d : List (Char × Nat)) (c : Char) :
    dictGet (s.foldl (fun freqs letter =>
      match dictGet freqs letter with
      | some n => dictSet freqs letter (n + 1)
      | none => dictSet freqs letter 1) d) c =
    match dictGet d c with
    | some n => some (n + occCount s c)
    | none => if c ∈ s then some (occCount s c) else none := by
  induction s generalizing d with
  | nil =>
    cases h : dictGet d c <;> simp [h, occCount]
  | cons a s ih =>
    have hcons : occCount (a :: s) c = occCount s c + (if c = a then 1 else 0) := by
      by_cases hca : c = a <;>
        simp [occCount, List.countP_cons, hca, eq_comm]
    simp only [List.foldl_cons]
    rw [ih]
    cases hda : dictGet d a with
    | some n =>
      by_cases hca : c = a
      · subst hca
        rw [dictGet_dictSet]
        simp [hda, hcons]
        omega
      · rw [dictGet_dictSet, if_neg hca]
        cases hdc : dictGet d c <;> simp [hdc, hcons, hca, List.mem_cons]
    | none =>
      by_cases hca : c = a
      · subst hca
        rw [dictGet_dictSet]
        simp [hda, hcons]
        omega
      · rw [dictGet_dictSet, if_neg hca]
        cases hdc : dictGet d c <;> simp [hdc, hcons, hca, List.mem_cons]

/-- The dict built by letter_freq maps each letter of s to its
multiplicity and has no other keys. -/
theorem dictGet_letter_freq (w : List Char) (c : Char) :
    dictGet (letter_freq w) c = if c ∈ w then some (occCount w c) else none := by
  unfold letter_freq
  rw [letter_freq_aux]
  simp [dictGet]

/-! ### Counting lemmas over index ranges -/

theorem countP_range_congr {p q : Nat → Bool} {n : Nat} (h : ∀ j, j < n → p j = q j) :
    (List.range n).countP p = (List.range n).countP q := by
  induction n with
  | zero => simp
  | succ n ih =>
    rw [List.range_succ, List.countP_append, List.countP_append,
      ih (fun j hj => h j (Nat.lt_succ_of_lt hj))]
    simp [List.countP_cons, h n (Nat.lt_succ_self n)]

theorem countP_range_mono_len {p : Nat → Bool} {m n : Nat} (h : m ≤ n) :
    (List.range m).countP p ≤ (List.range n).countP p := by
  obtain ⟨k, rfl⟩ := Nat.le.dest h
  clear h
  induction k with
  | zero => exact Nat.le_refl _
  | succ k ih =>
    have heq : m + (k + 1) = (m + k) + 1 := by omega
    rw [heq, List.range_succ, List.countP_append]
    exact Nat.le_trans ih (Nat.le_add_right _ _)

theorem countP_range_split (p : Nat → Bool) {n i : Nat} (hi : i < n) :
    (List.range n).countP p =
      (List.range n).countP (fun j => p j && decide (j ≠ i)) + (if p i then 1 else 0) := by
  induction n with
  | zero => omega
  | succ n ih =>
    rcases Nat.lt_succ_iff_lt_or_eq.mp hi with hlt | rfl
    · rw [List.range_succ, List.countP_append, List.countP_append, ih hlt]
      have hne : (n ≠ i) = True := by
        simp
        omega
      simp [List.countP_cons, hne]
      omega
    · rw [List.range_succ, List.countP_append, List.countP_append]
      have h1 : (List.range i).countP (fun j => p j && decide (j ≠ i)) =
          (List.range i).countP p := by
        refine countP_range_congr (fun j hj => ?_)
        have : (j ≠ i) = True := by
          simp
          omega
        simp [this]
      rw [h1]
      simp [List.countP_cons]

/-- Changing a predicate at a single index i < n changes its count over
range n only by the contribution at i. -/
theorem countP_range_update {p p' : Nat → Bool} {n i : Nat} (hi : i < n)
    (hoff : ∀ j, j ≠ i → p' j = p j) :
    (List.range n).countP p' + (if p i then 1 else 0) =
    (List.range n).countP p + (if p' i then 1 else 0) := by
  rw [countP_range_split p hi, countP_range_split p' hi]
  have : (List.range n).countP (fun j => p' j && decide (j ≠ i)) =
      (List.range n).countP (fun j => p j && decide (j ≠ i)) := by
    refine countP_range_congr (fun j _ => ?_)
    by_cases hj : j = i
    · simp [hj]
    · simp [hoff j hj]
  rw [this]
  omega

theorem two_le_countP_range {p : Nat → Bool} {n i j : Nat} (hi : i < n) (hj : j < n)
    (hij : i ≠ j) (hpi : p i = true) (hpj : p j = true) :
    2 ≤ (List.range n).countP p := by
  rw [countP_range_split p hi, if_pos hpi]
  have : 0 < (List.range n).countP (fun m => p m && decide (m ≠ i)) := by
    rw [List.countP_pos_iff]
    exact ⟨j, List.mem_range.mpr hj, by simp [hpj, Ne.symm hij]⟩
  omega

/-- The multiplicity of c in w as a count over index positions. -/
theorem occCount_eq_countP_range (w : List Char) (c : Char) :
    occCount w c = (List.range w.length).countP (fun j => decide (w[j]? = some c)) := by
  induction w with
  | nil => simp [occCount]
  | cons a t ih =>
    rw [occCount, List.countP_cons]
    have : t.countP (fun x => decide (x = c)) = occCount t c := rfl
    rw [this, ih]
    rw [List.length_cons, List.range_succ_eq_map, List.countP_cons, List.countP_map]
    have hcomp : (List.range t.length).countP
          ((fun j => decide ((a :: t)[j]? = some c)) ∘ Nat.succ) =
        (List.range t.length).countP (fun j => decide (t[j]? = some c)) := by
      refine List.countP_congr (fun x _ => ?_)
      simp
    rw [hcomp]
    by_cases hac : a = c <;> simp [hac]

theorem WORD_LENGTH_eq : WORD_LENGTH = 5 := rfl

theorem TRIES_LIMIT_eq : TRIES_LIMIT = 6 := rfl

/-! ### Generic loop lemmas -/

theorem loopFrom_succ {σ : Type} (step : Nat → σ → Option σ) (k n : Nat) (st : σ) :
    loopFrom step k (n + 1) st =
      match step k st with
      | none => none
      | some st' => loopFrom step (k + 1) n st' := rfl

theorem loopFrom_append {σ : Type} (step : Nat → σ → Option σ) :
    ∀ (m n k : Nat) (st : σ),
    loopFrom step k (m + n) st = (loopFrom step k m st).bind (loopFrom step (k + m) n) := by
  intro m
  induction m with
  | zero =>
    intro n k st
    simp [loopFrom]
  | succ m ih =>
    intro n k st
    have hc : m + 1 + n = (m + n) + 1 := by omega
    rw [hc, loopFrom_succ, loopFrom_succ]
    cases hs : step k st with
    | none => rfl
    | some st1 =>
      show loopFrom step (k + 1) (m + n) st1 =
        (loopFrom step (k + 1) m st1).bind (loopFrom step (k + (m + 1)) n)
      rw [ih n (k + 1) st1]
      have hk2 : k + 1 + m = k + (m + 1) := by omega
      rw [hk2]

theorem loopFrom_rel {σ : Type} (step : Nat → σ → Option σ) (R : σ → σ → Prop)
    (hrefl : ∀ s, R s s) (htrans : ∀ a b c, R a b → R b c → R a c)
    (hstep : ∀ i s s', step i s = some s' → R s s') :
    ∀ (n k : Nat) (s s' : σ), loopFrom step k n s = some s' → R s s' := by
  intro n
  induction n with
  | zero =>
    intro k s s' h
    simp only [loopFrom, Option.some_inj] at h
    exact h ▸ hrefl s
  | succ n ih =>
    intro k s s' h
    rw [loopFrom_succ] at h
    cases hs : step k s with
    | none => rw [hs] at h; cases h
    | some s1 =>
      rw [hs] at h
      exact htrans _ _ _ (hstep _ _ _ hs) (ih _ _ _ h)

/-! ### LETTER_STATUS bookkeeping -/

theorem spanCount_cons (k : Char) (v : StatusSpans) (d : LSDict) :
    spanCount ((k, v) :: d) = v.length + spanCount d := by
  simp [spanCount]

theorem spanCount_dictSet (ls : LSDict) (c : Char) (spans spans' : StatusSpans)
    (h : dictGet ls c = some spans) :
    spanCount (dictSet ls c spans') + spans.length = spanCount ls + spans'.length := by
  induction ls with
  | nil => simp [dictGet] at h
  | cons p d ih =>
    obtain ⟨k', v'⟩ := p
    by_cases hc : c = k'
    · subst hc
      simp only [dictGet, if_true, eq_self_iff_true, Option.some_inj] at h
      subst h
      simp only [dictSet, if_true, eq_self_iff_true, spanCount_cons]
      omega
    · simp only [dictGet, if_neg hc] at h
      simp only [dictSet, if_neg hc]
      rw [spanCount_cons, spanCount_cons]
      have := ih h
      omega

theorem stylize_eq {ls : LSDict} {letter : Char} {c : GuessColor} {ls' : LSDict}
    (h : stylize ls letter c = some ls') :
    ∃ spans, dictGet ls letter = some spans ∧ ls' = dictSet ls letter (spans ++ [c]) := by
  unfold stylize at h
  cases hd : dictGet ls letter with
  | none => rw [hd] at h; cases h
  | some spans =>
    rw [hd] at h
    exact ⟨spans, rfl, (Option.some_inj.mp h).symm⟩

theorem stylize_before_eq {ls : LSDict} {letter : Char} {c : GuessColor} {ls' : LSDict}
    (h : stylize_before ls letter c = some ls') :
    ∃ spans, dictGet ls letter = some spans ∧ ls' = dictSet ls letter (c :: spans) := by
  unfold stylize_before at h
  cases hd : dictGet ls letter with
  | none => rw [hd] at h; cases h
  | some spans =>
    rw [hd] at h
    exact ⟨spans, rfl, (Option.some_inj.mp h).symm⟩

theorem spanCount_stylize {ls : LSDict} {letter : Char} {c : GuessColor} {ls' : LSDict}
    (h : stylize ls letter c = some ls') : spanCount ls' = spanCount ls + 1 := by
  obtain ⟨spans, hd, rfl⟩ := stylize_eq h
  have := spanCount_dictSet ls letter spans (spans ++ [c]) hd
  simp at this
  omega

theorem spanCount_stylize_before {ls : LSDict} {letter : Char} {c : GuessColor} {ls' : LSDict}
    (h : stylize_before ls letter c = some ls') : spanCount ls' = spanCount ls + 1 := by
  obtain ⟨spans, hd, rfl⟩ := stylize_before_eq h
  have := spanCount_dictSet ls letter spans (c :: spans) hd
  simp at this
  omega

theorem dom_stylize {ls : LSDict} {letter : Char} {c : GuessColor} {ls' : LSDict}
    (h : stylize ls letter c = some ls') :
    ∀ x, (dictGet ls' x).isSome = (dictGet ls x).isSome := by
  obtain ⟨spans, hd, rfl⟩ := stylize_eq h
  intro x
  rw [dictGet_dictSet]
  by_cases hx : x = letter
  · subst hx
    simp [hd]
  · rw [if_neg hx]

theorem dom_stylize_before {ls : LSDict} {letter : Char} {c : GuessColor} {ls' : LSDict}
    (h : stylize_before ls letter c = some ls') :
    ∀ x, (dictGet ls' x).isSome = (dictGet ls x).isSome := by
  obtain ⟨spans, hd, rfl⟩ := stylize_before_eq h
  intro x
  rw [dictGet_dictSet]
  by_cases hx : x = letter
  · subst hx
    simp [hd]
  · rw [if_neg hx]

theorem lsEvolves_refl (ls : LSDict) : lsEvolves ls ls :=
  fun _ spans h => ⟨spans, h, fun hne => ⟨hne, Or.inl rfl⟩⟩

theorem lsEvolves_trans {a b c : LSDict} (h1 : lsEvolves a b) (h2 : lsEvolves b c) :
    lsEvolves a c := by
  intro x spans hx
  obtain ⟨s1, hb, hp1⟩ := h1 x spans hx
  obtain ⟨s2, hc, hp2⟩ := h2 x s1 hb
  refine ⟨s2, hc, fun hne => ?_⟩
  obtain ⟨hne1, hlast1⟩ := hp1 hne
  obtain ⟨hne2, hlast2⟩ := hp2 hne1
  refine ⟨hne2, ?_⟩
  rcases hlast2 with h2a | h2b
  · rcases hlast1 with h1a | h1b
    · exact Or.inl (h2a.trans h1a)
    · exact Or.inr (h2a.trans h1b)
  · exact Or.inr h2b

theorem getLast?_cons_of_ne_nil {α : Type} (a : α) {l : List α} (h : l ≠ []) :
    (a :: l).getLast? = l.getLast? := by
  cases l with
  | nil => exact absurd rfl h
  | cons b t => exact List.getLast?_cons_cons

theorem lsEvolves_stylize_green {ls ls' : LSDict} {letter : Char}
    (h : stylize ls letter .green = some ls') : lsEvolves ls ls' := by
  obtain ⟨spans, hd, rfl⟩ := stylize_eq h
  intro x sx hx
  rw [dictGet_dictSet]
  by_cases hxl : x = letter
  · subst hxl
    rw [hd] at hx
    obtain rfl : spans = sx := Option.some_inj.mp hx
    refine ⟨spans ++ [.green], if_pos rfl, fun _ => ⟨by simp, Or.inr ?_⟩⟩
    exact List.getLast?_concat _
  · exact ⟨sx, by rw [if_neg hxl]; exact hx, fun hne => ⟨hne, Or.inl rfl⟩⟩

theorem lsEvolves_stylize_before {ls ls' : LSDict} {letter : Char} {c : GuessColor}
    (h : stylize_before ls letter c = some ls') : lsEvolves ls ls' := by
  obtain ⟨spans, hd, rfl⟩ := stylize_before_eq h
  intro x sx hx
  rw [dictGet_dictSet]
  by_cases hxl : x = letter
  · subst hxl
    rw [hd] at hx
    obtain rfl : spans = sx := Option.some_inj.mp hx
    refine ⟨c :: spans, if_pos rfl, fun hne => ⟨by simp, Or.inl ?_⟩⟩
    exact getLast?_cons_of_ne_nil c hne
  · exact ⟨sx, by rw [if_neg hxl]; exact hx, fun hne => ⟨hne, Or.inl rfl⟩⟩

/-! ### The green pass (pass 1) of color_guess -/

theorem countP_range_succ (p : Nat → Bool) (k : Nat) :
    (List.range (k + 1)).countP p = (List.range k).countP p + (if p k then 1 else 0) := by
  rw [List.range_succ, List.countP_append]
  simp [List.countP_cons]

theorem greens_succ (g w : List Char) (k : Nat) (c : Char) :
    greens g w (k + 1) c = greens g w k c +
      (if exactB g w k && decide (g[k]? = some c) then 1 else 0) := by
  unfold greens
  rw [countP_range_succ]

theorem pass1_init (g w : List Char) (ls0 : LSDict) :
    Pass1Inv g w ls0 0 ⟨List.replicate WORD_LENGTH none, letter_freq w, ls0⟩ := by
  refine ⟨?_, ?_, ?_, ?_, ?_, ?_⟩
  · intro c
    simp only [greens, List.range_zero, List.countP_nil]
    rw [dictGet_letter_freq]
    by_cases hc : c ∈ w <;> simp [hc]
  · intro c
    simp [greens]
  · exact List.length_replicate WORD_LENGTH none
  · intro i hi
    rw [List.getElem?_replicate_of_lt hi]
    simp
  · intro c
    rfl
  · simp

theorem pass1Step_inv {g w : List Char} {ls0 : LSDict} {k : Nat} {st : EvalSt}
    (hg : g.length = WORD_LENGTH) (hw : w.length = WORD_LENGTH)
    (hgdom : ∀ c ∈ g, (dictGet ls0 c).isSome = true)
    (hk : k < WORD_LENGTH) (hinv : Pass1Inv g w ls0 k st) :
    ∃ st', pass1Step g w k st = some st' ∧ Pass1Inv g w ls0 (k + 1) st' := by
  cases hga : g[k]? with
  | none =>
    rw [List.getElem?_eq_none_iff] at hga
    omega
  | some a =>
  cases hgb : w[k]? with
  | none =>
    rw [List.getElem?_eq_none_iff] at hgb
    omega
  | some b =>
  by_cases hab : a = b
  · subst hab
    have haw : a ∈ w := List.getElem?_mem hgb
    have hag : a ∈ g := List.getElem?_mem hga
    have hexact : exactB g w k = true := by
      simp [exactB, hga, hgb]
    have hfa := hinv.freq_spec a
    rw [if_pos haw] at hfa
    have hglt : greens g w k a < occCount w a := by
      have h1 : greens g w k a ≤
          (List.range k).countP (fun j => decide (w[j]? = some a)) := by
        refine List.countP_mono_left (fun j _ hj => ?_)
        simp only [exactB, Bool.and_eq_true, decide_eq_true_eq] at hj
        simp only [decide_eq_true_eq]
        rw [← hj.1.1]
        exact hj.2
      have h2 : (List.range (k + 1)).countP (fun j => decide (w[j]? = some a)) =
          (List.range k).countP (fun j => decide (w[j]? = some a)) + 1 := by
        rw [countP_range_succ]
        simp [hgb]
      have h3 : (List.range (k + 1)).countP (fun j => decide (w[j]? = some a)) ≤
          (List.range w.length).countP (fun j => decide (w[j]? = some a)) := by
        refine countP_range_mono_len ?_
        have h5 : WORD_LENGTH = 5 := rfl
        omega
      have h4 := occCount_eq_countP_range w a
      omega
    have hdom : (dictGet st.ls a).isSome = true := by
      rw [hinv.ls_dom a]
      exact hgdom a hag
    cases hsa : dictGet st.ls a with
    | none => rw [hsa] at hdom; cases hdom
    | some spansA =>
    have hgsucc : greens g w (k + 1) a = greens g w k a + 1 := by
      rw [greens_succ]
      have hcond : (exactB g w k && decide (g[k]? = some a)) = true := by
        simp [hexact, hga]
      simp [hcond]
    refine ⟨⟨st.cls.set k (some .green),
        dictSet st.freq a ((occCount w a - greens g w k a) - 1),
        dictSet st.ls a (spansA ++ [.green])⟩, ?_, ?_, ?_, ?_, ?_, ?_, ?_⟩
    · unfold pass1Step
      rw [hga, hgb]
      have hpos : occCount w a - greens g w k a > 0 := by omega
      simp [hfa, stylize, hsa, hpos]
    · intro c
      simp only
      rw [dictGet_dictSet]
      by_cases hc : c = a
      · subst hc
        rw [if_pos rfl, if_pos haw, hgsucc]
        have : occCount w c - greens g w k c - 1 = occCount w c - (greens g w k c + 1) := by
          omega
        rw [this]
      · rw [if_neg hc]
        have hgr : greens g w (k + 1) c = greens g w k c := by
          rw [greens_succ]
          have : decide (g[k]? = some c) = false := by
            simp [hga]
            exact fun h => hc h.symm
          simp [this]
        rw [hgr]
        exact hinv.freq_spec c
    · intro c
      by_cases hc : c = a
      · subst hc
        rw [hgsucc]
        omega
      · have hgr : greens g w (k + 1) c = greens g w k c := by
          rw [greens_succ]
          have : decide (g[k]? = some c) = false := by
            simp [hga]
            exact fun h => hc h.symm
          simp [this]
        rw [hgr]
        exact hinv.greens_le c
    · simp only [List.length_set]
      exact hinv.cls_len
    · intro i hi
      simp only
      by_cases hik : i = k
      · subst hik
        have hilen : i < st.cls.length := by
          rw [hinv.cls_len]
          exact hi
        rw [List.getElem?_set_self hilen]
        simp [hexact]
      · rw [List.getElem?_set_ne (fun h => hik h.symm)]
        rw [hinv.cls_spec i hi]
        have hdec : decide (i < k) = decide (i < k + 1) :=
          decide_eq_decide.mpr (by omega)
        rw [hdec]
    · intro c
      simp only
      rw [dictGet_dictSet]
      by_cases hc : c = a
      · subst hc
        rw [if_pos rfl]
        rw [hinv.ls_dom c] at hdom
        rw [hdom]
        rfl
      · rw [if_neg hc]
        exact hinv.ls_dom c
    · simp only
      have hsc := spanCount_dictSet st.ls a spansA (spansA ++ [.green]) hsa
      simp only [List.length_append, List.length_cons, List.length_nil] at hsc
      rw [countP_range_succ, if_pos hexact]
      have := hinv.ls_count
      omega
  · refine ⟨st, ?_, ?_, ?_, hinv.cls_len, ?_, hinv.ls_dom, ?_⟩
    · unfold pass1Step
      rw [hga, hgb]
      simp [hab]
    · intro c
      have hgr : greens g w (k + 1) c = greens g w k c := by
        rw [greens_succ]
        have hexf : exactB g w k = false := by
          simp [exactB, hga, hgb]
          exact hab
        simp [hexf]
      rw [hgr]
      exact hinv.freq_spec c
    · intro c
      have hgr : greens g w (k + 1) c = greens g w k c := by
        rw [greens_succ]
        have hexf : exactB g w k = false := by
          simp [exactB, hga, hgb]
          exact hab
        simp [hexf]
      rw [hgr]
      exact hinv.greens_le c
    · intro i hi
      rw [hinv.cls_spec i hi]
      have hexf : exactB g w k = false := by
        simp [exactB, hga, hgb]
        exact hab
      by_cases hik : i = k
      · subst hik
        simp [hexf]
      · have hdec : decide (i < k) = decide (i < k + 1) :=
          decide_eq_decide.mpr (by omega)
        rw [hdec]
    · rw [hinv.ls_count, countP_range_succ]
      have hexf : exactB g w k = false := by
        simp [exactB, hga, hgb]
        exact hab
      simp [hexf]

theorem pass1_loop {g w : List Char} {ls0 : LSDict}
    (hg : g.length = WORD_LENGTH) (hw : w.length = WORD_LENGTH)
    (hgdom : ∀ c ∈ g, (dictGet ls0 c).isSome = true) :
    ∀ (n k : Nat) (st : EvalSt), k + n = WORD_LENGTH → Pass1Inv g w ls0 k st →
    ∃ st', loopFrom (pass1Step g w) k n st = some st' ∧
      Pass1Inv g w ls0 WORD_LENGTH st' := by
  intro n
  induction n with
  | zero =>
    intro k st hk hinv
    have hk5 : k = WORD_LENGTH := by omega
    subst hk5
    exact ⟨st, rfl, hinv⟩
  | succ n ih =>
    intro k st hk hinv
    obtain ⟨st1, hstep, hinv1⟩ := pass1Step_inv hg hw hgdom (by omega) hinv
    obtain ⟨st', hloop, hinv'⟩ := ih (k + 1) st1 (by omega) hinv1
    refine ⟨st', ?_, hinv'⟩
    rw [loopFrom_succ, hstep]
    exact hloop

/-! ### The yellow/gray pass (pass 2) of color_guess -/

theorem ite_decide_nat (p : Prop) [inst : Decidable p] :
    (if (decide p : Bool) = true then 1 else 0) = (if p then 1 else 0) := by
  by_cases h : p <;> simp [h]

theorem countColor_set {g : List Char} {cls : List (Option GuessColor)} {c : Char}
    {k : GuessColor} {j : Nat} {v : Option GuessColor}
    (hjlen : j < cls.length) (hj5 : j < WORD_LENGTH) :
    countColor g (cls.set j v) c k +
      (if g[j]? = some c ∧ cls[j]? = some (some k) then 1 else 0) =
    countColor g cls c k + (if g[j]? = some c ∧ v = some k then 1 else 0) := by
  unfold countColor
  have hoff : ∀ i, i ≠ j →
      (fun i => decide (g[i]? = some c ∧ (cls.set j v)[i]? = some (some k))) i =
      (fun i => decide (g[i]? = some c ∧ cls[i]? = some (some k))) i := by
    intro i hij
    have hne : (cls.set j v)[i]? = cls[i]? := List.getElem?_set_ne (fun h => hij h.symm)
    simp only [hne]
  have h := @countP_range_update
    (fun i => decide (g[i]? = some c ∧ cls[i]? = some (some k)))
    (fun i => decide (g[i]? = some c ∧ (cls.set j v)[i]? = some (some k)))
    WORD_LENGTH j hj5 hoff
  have hset : (cls.set j v)[j]? = some v := List.getElem?_set_self hjlen
  have e2 : (decide (g[j]? = some c ∧ (cls.set j v)[j]? = some (some k)) : Bool) =
      decide (g[j]? = some c ∧ v = some k) := by
    apply decide_eq_decide.mpr
    rw [hset]
    simp
  simp only at h
  simp only [ite_decide_nat] at h
  simp only [hset, Option.some_inj] at h
  exact h

theorem pass2_init {g w : List Char} {ls0 : LSDict} {st : EvalSt}
    (hinv : Pass1Inv g w ls0 WORD_LENGTH st) : Pass2Inv g w ls0 0 st := by
  have hcls : ∀ i, i < WORD_LENGTH →
      st.cls[i]? = some (if exactB g w i then some GuessColor.green else none) := by
    intro i hi
    rw [hinv.cls_spec i hi]
    have : decide (i < WORD_LENGTH) = true := decide_eq_true hi
    rw [this, Bool.and_true]
  have hgreenC : ∀ c, countColor g st.cls c .green = greens g w WORD_LENGTH c := by
    intro c
    unfold countColor greens
    refine countP_range_congr (fun i hi => ?_)
    rcases Bool.eq_false_or_eq_true (exactB g w i) with hex | hex
    · have hclsi : st.cls[i]? = some (some GuessColor.green) := by
        rw [hcls i hi, hex]
        simp
      simp [hclsi, hex]
    · have hclsi : st.cls[i]? = some none := by
        rw [hcls i hi, hex]
        simp
      simp [hclsi, hex]
  have hyellowC : ∀ c, countColor g st.cls c .yellow = 0 := by
    intro c
    unfold countColor
    refine List.countP_eq_zero.mpr (fun i hi => ?_)
    have hi5 := List.mem_range.mp hi
    simp only [decide_eq_true_eq]
    intro hcontra
    have hcv := hcontra.2
    rw [hcls i hi5] at hcv
    rcases Bool.eq_false_or_eq_true (exactB g w i) with hex | hex <;>
      rw [hex] at hcv <;> simp at hcv
  refine ⟨hinv.cls_len, ?_, ?_, ?_, ?_, ?_, hinv.ls_dom, ?_⟩
  · intro c hcw
    refine ⟨occCount w c - greens g w WORD_LENGTH c, ?_, ?_⟩
    · rw [hinv.freq_spec c, if_pos hcw]
    · unfold consumedCP
      rw [hgreenC c, hyellowC c]
      have := hinv.greens_le c
      omega
  · intro c hcw
    rw [hinv.freq_spec c, if_neg hcw]
  · intro c hcw
    unfold consumedCP
    rw [hgreenC c, hyellowC c]
    have hle : greens g w WORD_LENGTH c ≤
        (List.range WORD_LENGTH).countP (fun j => decide (w[j]? = some c)) := by
      unfold greens
      refine List.countP_mono_left (fun i _ hp => ?_)
      simp only [exactB, Bool.and_eq_true, decide_eq_true_eq] at hp
      simp only [decide_eq_true_eq]
      rw [← hp.1.1]
      exact hp.2
    have hzero : (List.range WORD_LENGTH).countP (fun j => decide (w[j]? = some c)) = 0 := by
      refine List.countP_eq_zero.mpr (fun i _ => ?_)
      simp only [decide_eq_true_eq]
      intro hcontra
      exact hcw (List.getElem?_mem hcontra)
    omega
  · intro i hi
    rw [hcls i hi]
    rcases Bool.eq_false_or_eq_true (exactB g w i) with hex | hex <;> simp [hex]
  · intro i _ hi
    exact hcls i hi
  · rw [hinv.ls_count]
    simp

theorem pass2Step_inv {g w : List Char} {ls0 : LSDict} {j : Nat} {st : EvalSt}
    (hg : g.length = WORD_LENGTH) (hw : w.length = WORD_LENGTH)
    (hgdom : ∀ c ∈ g, (dictGet ls0 c).isSome = true)
    (hj : j < WORD_LENGTH) (hinv : Pass2Inv g w ls0 j st) :
    ∃ st', pass2Step g w j st = some st' ∧ Pass2Inv g w ls0 (j + 1) st' ∧
      (∀ i, i ≠ j → st'.cls[i]? = st.cls[i]?) ∧
      (∀ a, g[j]? = some a → exactB g w j = false → a ∈ w →
        dictGet st.freq a = some 0 → st'.cls[j]? = some (some GuessColor.gray)) := by
  have hclsj := hinv.unprocessed j (Nat.le_refl j) hj
  rcases Bool.eq_false_or_eq_true (exactB g w j) with hex | hex
  · rw [hex] at hclsj
    simp only [if_pos rfl] at hclsj
    refine ⟨st, ?_, ?_, fun i _ => rfl, ?_⟩
    · unfold pass2Step
      rw [hclsj]
      simp
    · refine ⟨hinv.cls_len, hinv.freq_some, hinv.freq_none, hinv.consumed_zero,
        hinv.green_iff, ?_, hinv.ls_dom, ?_⟩
      · intro i hji hi
        exact hinv.unprocessed i (by omega) hi
      · rw [hinv.ls_count, countP_range_succ]
        simp [hex]
    · intro a _ hexf
      rw [hexf] at hex
      cases hex
  · rw [hex] at hclsj
    simp only [Bool.false_eq_true, if_false] at hclsj
    have hskip : ¬ st.cls[j]? = some (some GuessColor.green) := by
      rw [hclsj]
      simp
    cases hga : g[j]? with
    | none =>
      rw [List.getElem?_eq_none_iff] at hga
      omega
    | some a =>
    have hag : a ∈ g := List.getElem?_mem hga
    have hjlen : j < st.cls.length := by
      rw [hinv.cls_len]
      exact hj
    have hdoma : (dictGet st.ls a).isSome = true := by
      rw [hinv.ls_dom a]
      exact hgdom a hag
    cases hsa : dictGet st.ls a with
    | none => rw [hsa] at hdoma; cases hdoma
    | some spansA =>
    have hgreen_set : ∀ (v : Option GuessColor), v ≠ some GuessColor.green →
        ∀ c, countColor g (st.cls.set j v) c .green = countColor g st.cls c .green := by
      intro v hv c
      have h := @countColor_set g st.cls c GuessColor.green j v hjlen hj
      rw [if_neg ?_, if_neg ?_] at h
      · omega
      · intro hcon
        exact hv hcon.2
      · intro hcon
        have := hcon.2
        rw [hclsj] at this
        simp at this
    have hyellow_set_other : ∀ (v : Option GuessColor) (c : Char), ¬ c = a →
        countColor g (st.cls.set j v) c .yellow = countColor g st.cls c .yellow := by
      intro v c hca
      have h := @countColor_set g st.cls c GuessColor.yellow j v hjlen hj
      rw [if_neg ?_, if_neg ?_] at h
      · omega
      · intro hcon
        rw [hga] at hcon
        exact hca (Option.some_inj.mp hcon.1).symm
      · intro hcon
        rw [hga] at hcon
        exact hca (Option.some_inj.mp hcon.1).symm
    have hgray_yellow : ∀ c, countColor g (st.cls.set j (some .gray)) c .yellow =
        countColor g st.cls c .yellow := by
      intro c
      have h := @countColor_set g st.cls c GuessColor.yellow j (some GuessColor.gray) hjlen hj
      rw [if_neg ?_, if_neg ?_] at h
      · omega
      · intro hcon
        cases hcon.2
      · intro hcon
        have := hcon.2
        rw [hclsj] at this
        simp at this
    by_cases haw : a ∈ w
    · obtain ⟨n, hfa, hsum⟩ := hinv.freq_some a haw
      by_cases hn : n > 0
      · -- yellow branch
        refine ⟨⟨st.cls.set j (some .yellow), dictSet st.freq a (n - 1),
            dictSet st.ls a (.yellow :: spansA)⟩, ?_, ?_, ?_, ?_⟩
        · unfold pass2Step
          rw [if_neg hskip, hga]
          simp [haw, hfa, hn, stylize_before, hsa]
        · have hyella : countColor g (st.cls.set j (some .yellow)) a .yellow =
              countColor g st.cls a .yellow + 1 := by
            have h := @countColor_set g st.cls a GuessColor.yellow j
              (some GuessColor.yellow) hjlen hj
            rw [if_neg ?_, if_pos ⟨hga, rfl⟩] at h
            · omega
            · intro hcon
              have := hcon.2
              rw [hclsj] at this
              simp at this
          refine ⟨?_, ?_, ?_, ?_, ?_, ?_, ?_, ?_⟩
          · simp only [List.length_set]
            exact hinv.cls_len
          · intro c hcw
            simp only
            rw [dictGet_dictSet]
            by_cases hca : c = a
            · subst hca
              refine ⟨n - 1, if_pos rfl, ?_⟩
              unfold consumedCP
              rw [hgreen_set (some .yellow) (by simp) c, hyella]
              unfold consumedCP at hsum
              omega
            · rw [if_neg hca]
              obtain ⟨m, hm, hmsum⟩ := hinv.freq_some c hcw
              refine ⟨m, hm, ?_⟩
              unfold consumedCP
              rw [hgreen_set (some .yellow) (by simp) c, hyellow_set_other _ c hca]
              exact hmsum
          · intro c hcw
            simp only
            rw [dictGet_dictSet]
            have hca : ¬ c = a := fun h => hcw (h ▸ haw)
            rw [if_neg hca]
            exact hinv.freq_none c hcw
          · intro c hcw
            have hca : ¬ c = a := fun h => hcw (h ▸ haw)
            unfold consumedCP
            simp only
            rw [hgreen_set (some .yellow) (by simp) c, hyellow_set_other _ c hca]
            exact hinv.consumed_zero c hcw
          · intro i hi
            simp only
            by_cases hij : i = j
            · subst hij
              rw [List.getElem?_set_self hjlen]
              rw [hex]
              simp
            · rw [List.getElem?_set_ne (fun h => hij h.symm)]
              exact hinv.green_iff i hi
          · intro i hji hi
            simp only
            rw [List.getElem?_set_ne (by omega)]
            exact hinv.unprocessed i (by omega) hi
          · intro c
            simp only
            rw [dictGet_dictSet]
            by_cases hca : c = a
            · subst hca
              rw [if_pos rfl]
              rw [hinv.ls_dom c] at hdoma
              rw [hdoma]
              rfl
            · rw [if_neg hca]
              exact hinv.ls_dom c
          · simp only
            have hsc := spanCount_dictSet st.ls a spansA (.yellow :: spansA) hsa
            simp only [List.length_cons] at hsc
            rw [countP_range_succ]
            have : (!(exactB g w j)) = true := by rw [hex]; rfl
            rw [if_pos this]
            have := hinv.ls_count
            omega
        · intro i hij
          simp only
          rw [List.getElem?_set_ne (fun h => hij h.symm)]
        · intro a' hga' hexf' haw' hfa'
          have haa : a = a' := Option.some_inj.mp hga'
          subst haa
          have hn0 : n = 0 := Option.some_inj.mp (hfa.symm.trans hfa')
          omega
      · -- gray branch, letter in wordle but budget exhausted
        have hn0 : n = 0 := by omega
        subst hn0
        refine ⟨⟨st.cls.set j (some .gray), st.freq,
            dictSet st.ls a (.gray :: spansA)⟩, ?_, ?_, ?_, ?_⟩
        · unfold pass2Step
          rw [if_neg hskip, hga]
          simp [haw, hfa, stylize_before, hsa]
        · refine ⟨?_, ?_, ?_, ?_, ?_, ?_, ?_, ?_⟩
          · simp only [List.length_set]
            exact hinv.cls_len
          · intro c hcw
            obtain ⟨m, hm, hmsum⟩ := hinv.freq_some c hcw
            refine ⟨m, hm, ?_⟩
            unfold consumedCP
            simp only
            rw [hgreen_set (some .gray) (by simp) c, hgray_yellow c]
            exact hmsum
          · intro c hcw
            exact hinv.freq_none c hcw
          · intro c hcw
            unfold consumedCP
            simp only
            rw [hgreen_set (some .gray) (by simp) c, hgray_yellow c]
            exact hinv.consumed_zero c hcw
          · intro i hi
            simp only
            by_cases hij : i = j
            · subst hij
              rw [List.getElem?_set_self hjlen]
              rw [hex]
              simp
            · rw [List.getElem?_set_ne (fun h => hij h.symm)]
              exact hinv.green_iff i hi
          · intro i hji hi
            simp only
            rw [List.getElem?_set_ne (by omega)]
            exact hinv.unprocessed i (by omega) hi
          · intro c
            simp only
            rw [dictGet_dictSet]
            by_cases hca : c = a
            · subst hca
              rw [if_pos rfl]
              rw [hinv.ls_dom c] at hdoma
              rw [hdoma]
              rfl
            · rw [if_neg hca]
              exact hinv.ls_dom c
          · simp only
            have hsc := spanCount_dictSet st.ls a spansA (.gray :: spansA) hsa
            simp only [List.length_cons] at hsc
            rw [countP_range_succ]
            have : (!(exactB g w j)) = true := by rw [hex]; rfl
            rw [if_pos this]
            have := hinv.ls_count
            omega
        · intro i hij
          simp only
          rw [List.getElem?_set_ne (fun h => hij h.symm)]
        · intro a' hga' hexf' haw' hfa'
          simp only
          rw [List.getElem?_set_self hjlen]
    · -- gray branch, letter not in wordle
      refine ⟨⟨st.cls.set j (some .gray), st.freq,
          dictSet st.ls a (.gray :: spansA)⟩, ?_, ?_, ?_, ?_⟩
      · unfold pass2Step
        rw [if_neg hskip, hga]
        simp [haw, stylize_before, hsa]
      · refine ⟨?_, ?_, ?_, ?_, ?_, ?_, ?_, ?_⟩
        · simp only [List.length_set]
          exact hinv.cls_len
        · intro c hcw
          obtain ⟨m, hm, hmsum⟩ := hinv.freq_some c hcw
          refine ⟨m, hm, ?_⟩
          unfold consumedCP
          simp only
          rw [hgreen_set (some .gray) (by simp) c, hgray_yellow c]
          exact hmsum
        · intro c hcw
          exact hinv.freq_none c hcw
        · intro c hcw
          unfold consumedCP
          simp only
          rw [hgreen_set (some .gray) (by simp) c, hgray_yellow c]
          exact hinv.consumed_zero c hcw
        · intro i hi
          simp only
          by_cases hij : i = j
          · subst hij
            rw [List.getElem?_set_self hjlen]
            rw [hex]
            simp
          · rw [List.getElem?_set_ne (fun h => hij h.symm)]
            exact hinv.green_iff i hi
        · intro i hji hi
          simp only
          rw [List.getElem?_set_ne (by omega)]
          exact hinv.unprocessed i (by omega) hi
        · intro c
          simp only
          rw [dictGet_dictSet]
          by_cases hca : c = a
          · subst hca
            rw [if_pos rfl]
            rw [hinv.ls_dom c] at hdoma
            rw [hdoma]
            rfl
          · rw [if_neg hca]
            exact hinv.ls_dom c
        · simp only
          have hsc := spanCount_dictSet st.ls a spansA (.gray :: spansA) hsa
          simp only [List.length_cons] at hsc
          rw [countP_range_succ]
          have : (!(exactB g w j)) = true := by rw [hex]; rfl
          rw [if_pos this]
          have := hinv.ls_count
          omega
      · intro i hij
        simp only
        rw [List.getElem?_set_ne (fun h => hij h.symm)]
      · intro a' hga' hexf' haw' hfa'
        have haa : a = a' := Option.some_inj.mp hga'
        exact absurd (haa ▸ haw') haw


/-! ### Shape of a single step, frame and evolution lemmas -/

theorem pass1Step_shape {g w : List Char} {j : Nat} {st st' : EvalSt}
    (h : pass1Step g w j st = some st') :
    st' = st ∨ ∃ a ls', stylize st.ls a GuessColor.green = some ls' ∧
      st'.cls = st.cls.set j (some GuessColor.green) ∧ st'.ls = ls' := by
  unfold pass1Step at h
  split at h
  · simp at h
  next a hga =>
    split at h
    · simp at h
    next b hgb =>
      split at h
      · split at h
        · simp at h
        next n hfa =>
          split at h
          · split at h
            · simp at h
            next ls1 hsb =>
              obtain rfl := Option.some_inj.mp h
              exact Or.inr ⟨a, ls1, hsb, rfl, rfl⟩
          · exact Or.inl (Option.some_inj.mp h).symm
      · exact Or.inl (Option.some_inj.mp h).symm

theorem pass2Step_shape {g w : List Char} {j : Nat} {st st' : EvalSt}
    (h : pass2Step g w j st = some st') :
    st' = st ∨ ∃ a color ls',
      (color = GuessColor.yellow ∨ color = GuessColor.gray) ∧
      stylize_before st.ls a color = some ls' ∧
      st'.cls = st.cls.set j (some color) ∧ st'.ls = ls' := by
  unfold pass2Step at h
  split at h
  · exact Or.inl (Option.some_inj.mp h).symm
  · split at h
    · simp at h
    next a hga =>
      split at h
      · split at h
        · simp at h
        next n hfa =>
          split at h
          · split at h
            · simp at h
            next ls1 hsb =>
              obtain rfl := Option.some_inj.mp h
              exact Or.inr ⟨a, .yellow, ls1, Or.inl rfl, hsb, rfl, rfl⟩
          · split at h
            · simp at h
            next ls1 hsb =>
              obtain rfl := Option.some_inj.mp h
              exact Or.inr ⟨a, .gray, ls1, Or.inr rfl, hsb, rfl, rfl⟩
      · split at h
        · simp at h
        next ls1 hsb =>
          obtain rfl := Option.some_inj.mp h
          exact Or.inr ⟨a, .gray, ls1, Or.inr rfl, hsb, rfl, rfl⟩

theorem pass1Step_evolves {g w : List Char} {j : Nat} {st st' : EvalSt}
    (h : pass1Step g w j st = some st') : lsEvolves st.ls st'.ls := by
  rcases pass1Step_shape h with rfl | ⟨a, ls1, hsb, _, hls⟩
  · exact lsEvolves_refl _
  · rw [hls]
    exact lsEvolves_stylize_green hsb

theorem pass2Step_evolves {g w : List Char} {j : Nat} {st st' : EvalSt}
    (h : pass2Step g w j st = some st') : lsEvolves st.ls st'.ls := by
  rcases pass2Step_shape h with rfl | ⟨a, color, ls1, _, hsb, _, hls⟩
  · exact lsEvolves_refl _
  · rw [hls]
    exact lsEvolves_stylize_before hsb

theorem pass2Step_frame {g w : List Char} {j : Nat} {st st' : EvalSt}
    (h : pass2Step g w j st = some st') :
    ∀ i, i ≠ j → st'.cls[i]? = st.cls[i]? := by
  rcases pass2Step_shape h with rfl | ⟨a, color, ls1, _, _, hcls, _⟩
  · intro i _
    rfl
  · intro i hij
    rw [hcls, List.getElem?_set_ne (fun hh => hij hh.symm)]

theorem pass2_loop_frame {g w : List Char} :
    ∀ (n j : Nat) (st st' : EvalSt),
    loopFrom (pass2Step g w) j n st = some st' →
    ∀ i, i < j → st'.cls[i]? = st.cls[i]? := by
  intro n
  induction n with
  | zero =>
    intro j st st' h i _
    simp only [loopFrom, Option.some_inj] at h
    rw [h]
  | succ n ih =>
    intro j st st' h i hij
    rw [loopFrom_succ] at h
    cases hs : pass2Step g w j st with
    | none => rw [hs] at h; cases h
    | some st1 =>
      rw [hs] at h
      have h1 := pass2Step_frame hs i (by omega)
      have h2 := ih (j + 1) st1 st' h i (by omega)
      rw [h2, h1]

/-! ### Running the two passes -/

theorem pass2_loop {g w : List Char} {ls0 : LSDict}
    (hg : g.length = WORD_LENGTH) (hw : w.length = WORD_LENGTH)
    (hgdom : ∀ c ∈ g, (dictGet ls0 c).isSome = true) :
    ∀ (n j : Nat) (st : EvalSt), j + n ≤ WORD_LENGTH → Pass2Inv g w ls0 j st →
    ∃ st', loopFrom (pass2Step g w) j n st = some st' ∧ Pass2Inv g w ls0 (j + n) st' := by
  intro n
  induction n with
  | zero =>
    intro j st _ hinv
    exact ⟨st, rfl, hinv⟩
  | succ n ih =>
    intro j st hjn hinv
    obtain ⟨st1, hstep, hinv1, _, _⟩ := pass2Step_inv hg hw hgdom (by omega) hinv
    obtain ⟨st', hloop, hinv'⟩ := ih (j + 1) st1 (by omega) hinv1
    refine ⟨st', ?_, ?_⟩
    · rw [loopFrom_succ, hstep]
      exact hloop
    · have heq : j + 1 + n = j + (n + 1) := by omega
      rw [heq] at hinv'
      exact hinv'

theorem color_guess_run {g w : List Char} {ls0 : LSDict}
    (hg : g.length = WORD_LENGTH) (hw : w.length = WORD_LENGTH)
    (hgdom : ∀ c ∈ g, (dictGet ls0 c).isSome = true) :
    ∃ st, color_guess g w ls0 = some (st.cls, st.ls) ∧
      Pass2Inv g w ls0 WORD_LENGTH st := by
  obtain ⟨st1, h1, hinv1⟩ := pass1_loop hg hw hgdom WORD_LENGTH 0
    ⟨List.replicate WORD_LENGTH none, letter_freq w, ls0⟩ rfl (pass1_init g w ls0)
  obtain ⟨st2, h2, hinv2⟩ := pass2_loop hg hw hgdom WORD_LENGTH 0 st1
    (by omega) (pass2_init hinv1)
  rw [Nat.zero_add] at hinv2
  refine ⟨st2, ?_, hinv2⟩
  unfold color_guess
  rw [h1]
  simp only [h2]


/-! ### color_guess level corollaries -/

theorem exactB_iff {g w : List Char} {i : Nat} (hg : g.length = WORD_LENGTH)
    (hi : i < WORD_LENGTH) : exactB g w i = true ↔ g[i]? = w[i]? := by
  unfold exactB
  cases hga : g[i]? with
  | none =>
    rw [List.getElem?_eq_none_iff] at hga
    omega
  | some a => simp

theorem pass1Step_dom {g w : List Char} {j : Nat} {st st' : EvalSt}
    (h : pass1Step g w j st = some st') :
    ∀ c, (dictGet st'.ls c).isSome = (dictGet st.ls c).isSome := by
  rcases pass1Step_shape h with rfl | ⟨a, ls1, hsb, _, hls⟩
  · intro c
    rfl
  · intro c
    rw [hls]
    exact dom_stylize hsb c

theorem pass2Step_dom {g w : List Char} {j : Nat} {st st' : EvalSt}
    (h : pass2Step g w j st = some st') :
    ∀ c, (dictGet st'.ls c).isSome = (dictGet st.ls c).isSome := by
  rcases pass2Step_shape h with rfl | ⟨a, color, ls1, _, hsb, _, hls⟩
  · intro c
    rfl
  · intro c
    rw [hls]
    exact dom_stylize_before hsb c

theorem color_guess_parts {g w : List Char} {ls : LSDict}
    {cls : List (Option GuessColor)} {ls' : LSDict}
    (h : color_guess g w ls = some (cls, ls')) :
    ∃ st1 st2,
      loopFrom (pass1Step g w) 0 WORD_LENGTH
        ⟨List.replicate WORD_LENGTH none, letter_freq w, ls⟩ = some st1 ∧
      loopFrom (pass2Step g w) 0 WORD_LENGTH st1 = some st2 ∧
      st2.cls = cls ∧ st2.ls = ls' := by
  unfold color_guess at h
  split at h
  · simp at h
  next st1 h1 =>
    split at h
    · simp at h
    next st2 h2 =>
      have hp := Option.some_inj.mp h
      exact ⟨st1, st2, h1, h2, congrArg Prod.fst hp, congrArg Prod.snd hp⟩

theorem color_guess_evolves {g w : List Char} {ls : LSDict}
    {cls : List (Option GuessColor)} {ls' : LSDict}
    (h : color_guess g w ls = some (cls, ls')) : lsEvolves ls ls' := by
  obtain ⟨st1, st2, h1, h2, _, hls2⟩ := color_guess_parts h
  have e1 : lsEvolves ls st1.ls := by
    refine loopFrom_rel (pass1Step g w) (fun s s' => lsEvolves s.ls s'.ls)
      (fun s => lsEvolves_refl _) (fun a b c hab hbc => lsEvolves_trans hab hbc)
      (fun i s s' hs => pass1Step_evolves hs) WORD_LENGTH 0 _ st1 h1
  have e2 : lsEvolves st1.ls st2.ls := by
    refine loopFrom_rel (pass2Step g w) (fun s s' => lsEvolves s.ls s'.ls)
      (fun s => lsEvolves_refl _) (fun a b c hab hbc => lsEvolves_trans hab hbc)
      (fun i s s' hs => pass2Step_evolves hs) WORD_LENGTH 0 st1 st2 h2
  rw [← hls2]
  exact lsEvolves_trans e1 e2

theorem color_guess_dom {g w : List Char} {ls : LSDict}
    {cls : List (Option GuessColor)} {ls' : LSDict}
    (h : color_guess g w ls = some (cls, ls')) :
    ∀ c, (dictGet ls' c).isSome = (dictGet ls c).isSome := by
  obtain ⟨st1, st2, h1, h2, _, hls2⟩ := color_guess_parts h
  have e1 : ∀ c, (dictGet st1.ls c).isSome = (dictGet ls c).isSome := by
    refine loopFrom_rel (pass1Step g w)
      (fun s s' => ∀ c, (dictGet s'.ls c).isSome = (dictGet s.ls c).isSome)
      (fun s c => rfl) (fun a b c hab hbc x => (hbc x).trans (hab x))
      (fun i s s' hs => pass1Step_dom hs) WORD_LENGTH 0 _ st1 h1
  have e2 : ∀ c, (dictGet st2.ls c).isSome = (dictGet st1.ls c).isSome := by
    refine loopFrom_rel (pass2Step g w)
      (fun s s' => ∀ c, (dictGet s'.ls c).isSome = (dictGet s.ls c).isSome)
      (fun s c => rfl) (fun a b c hab hbc x => (hbc x).trans (hab x))
      (fun i s s' hs => pass2Step_dom hs) WORD_LENGTH 0 st1 st2 h2
  intro c
  rw [← hls2]
  exact (e2 c).trans (e1 c)

/-! ### The classification does not depend on the LETTER_STATUS state -/

theorem dom_dictSet {ls1 ls2 : LSDict} {a : Char} {v1 v2 : StatusSpans}
    (hdom : ∀ x, (dictGet ls1 x).isSome = (dictGet ls2 x).isSome) :
    ∀ x, (dictGet (dictSet ls1 a v1) x).isSome = (dictGet (dictSet ls2 a v2) x).isSome := by
  intro x
  rw [dictGet_dictSet, dictGet_dictSet]
  by_cases hx : x = a
  · simp [hx]
  · rw [if_neg hx, if_neg hx]
    exact hdom x

theorem pass1Step_bisim {g w : List Char} {j : Nat} {s1 s2 : EvalSt}
    (hrel : stRel s1 s2) :
    (pass1Step g w j s1 = none ∧ pass1Step g w j s2 = none) ∨
    ∃ t1 t2, pass1Step g w j s1 = some t1 ∧ pass1Step g w j s2 = some t2 ∧ stRel t1 t2 := by
  obtain ⟨hc, hf, hl⟩ := hrel
  unfold pass1Step
  cases hga : g[j]? with
  | none => exact Or.inl ⟨rfl, rfl⟩
  | some a =>
  cases hgb : w[j]? with
  | none => exact Or.inl ⟨rfl, rfl⟩
  | some b =>
  simp only
  by_cases hab : a = b
  · rw [if_pos hab, if_pos hab, ← hf]
    cases hfa : dictGet s1.freq a with
    | none => exact Or.inl ⟨rfl, rfl⟩
    | some n =>
    simp only
    by_cases hn : n > 0
    · rw [if_pos hn, if_pos hn]
      unfold stylize
      cases hd1 : dictGet s1.ls a with
      | none =>
        have hd2 : dictGet s2.ls a = none := by
          have := hl a
          rw [hd1] at this
          cases hdd : dictGet s2.ls a with
          | none => rfl
          | some v =>
            rw [hdd] at this
            cases this
        rw [hd2]
        exact Or.inl ⟨rfl, rfl⟩
      | some sp1 =>
        have hd2 : ∃ sp2, dictGet s2.ls a = some sp2 := by
          have := hl a
          rw [hd1] at this
          cases hdd : dictGet s2.ls a with
          | none =>
            rw [hdd] at this
            cases this
          | some v => exact ⟨v, rfl⟩
        obtain ⟨sp2, hd2⟩ := hd2
        rw [hd2]
        refine Or.inr ⟨_, _, rfl, rfl, ?_, ?_, ?_⟩
        · simp [hc]
        · simp [hf]
        · simp only
          exact dom_dictSet hl
    · rw [if_neg hn, if_neg hn]
      exact Or.inr ⟨s1, s2, rfl, rfl, hc, hf, hl⟩
  · rw [if_neg hab, if_neg hab]
    exact Or.inr ⟨s1, s2, rfl, rfl, hc, hf, hl⟩

theorem pass2Step_bisim {g w : List Char} {j : Nat} {s1 s2 : EvalSt}
    (hrel : stRel s1 s2) :
    (pass2Step g w j s1 = none ∧ pass2Step g w j s2 = none) ∨
    ∃ t1 t2, pass2Step g w j s1 = some t1 ∧ pass2Step g w j s2 = some t2 ∧ stRel t1 t2 := by
  obtain ⟨hc, hf, hl⟩ := hrel
  unfold pass2Step
  rw [← hc]
  by_cases hskip : s1.cls[j]? = some (some GuessColor.green)
  · rw [if_pos hskip, if_pos hskip]
    exact Or.inr ⟨s1, s2, rfl, rfl, hc, hf, hl⟩
  · rw [if_neg hskip, if_neg hskip]
    cases hga : g[j]? with
    | none => exact Or.inl ⟨rfl, rfl⟩
    | some a =>
    simp only
    by_cases haw : a ∈ w
    · rw [if_pos haw, if_pos haw, ← hf]
      cases hfa : dictGet s1.freq a with
      | none => exact Or.inl ⟨rfl, rfl⟩
      | some n =>
      simp only
      by_cases hn : n > 0
      · rw [if_pos hn, if_pos hn]
        unfold stylize_before
        cases hd1 : dictGet s1.ls a with
        | none =>
          have hd2 : dictGet s2.ls a = none := by
            have := hl a
            rw [hd1] at this
            cases hdd : dictGet s2.ls a with
            | none => rfl
            | some v =>
              rw [hdd] at this
              cases this
          rw [hd2]
          exact Or.inl ⟨rfl, rfl⟩
        | some sp1 =>
          have hd2 : ∃ sp2, dictGet s2.ls a = some sp2 := by
            have := hl a
            rw [hd1] at this
            cases hdd : dictGet s2.ls a with
            | none =>
              rw [hdd] at this
              cases this
            | some v => exact ⟨v, rfl⟩
          obtain ⟨sp2, hd2⟩ := hd2
          rw [hd2]
          refine Or.inr ⟨_, _, rfl, rfl, ?_, ?_, ?_⟩
          · simp [hc]
          · simp [hf]
          · simp only
            exact dom_dictSet hl
      · rw [if_neg hn, if_neg hn]
        unfold stylize_before
        cases hd1 : dictGet s1.ls a with
        | none =>
          have hd2 : dictGet s2.ls a = none := by
            have := hl a
            rw [hd1] at this
            cases hdd : dictGet s2.ls a with
            | none => rfl
            | some v =>
              rw [hdd] at this
              cases this
          rw [hd2]
          exact Or.inl ⟨rfl, rfl⟩
        | some sp1 =>
          have hd2 : ∃ sp2, dictGet s2.ls a = some sp2 := by
            have := hl a
            rw [hd1] at this
            cases hdd : dictGet s2.ls a with
            | none =>
              rw [hdd] at this
              cases this
            | some v => exact ⟨v, rfl⟩
          obtain ⟨sp2, hd2⟩ := hd2
          rw [hd2]
          refine Or.inr ⟨_, _, rfl, rfl, ?_, ?_, ?_⟩
          · simp [hc]
          · simp [hf]
          · simp only
            exact dom_dictSet hl
    · rw [if_neg haw, if_neg haw]
      unfold stylize_before
      cases hd1 : dictGet s1.ls a with
      | none =>
        have hd2 : dictGet s2.ls a = none := by
          have := hl a
          rw [hd1] at this
          cases hdd : dictGet s2.ls a with
          | none => rfl
          | some v =>
            rw [hdd] at this
            cases this
        rw [hd2]
        exact Or.inl ⟨rfl, rfl⟩
      | some sp1 =>
        have hd2 : ∃ sp2, dictGet s2.ls a = some sp2 := by
          have := hl a
          rw [hd1] at this
          cases hdd : dictGet s2.ls a with
          | none =>
            rw [hdd] at this
            cases this
          | some v => exact ⟨v, rfl⟩
        obtain ⟨sp2, hd2⟩ := hd2
        rw [hd2]
        refine Or.inr ⟨_, _, rfl, rfl, ?_, ?_, ?_⟩
        · simp [hc]
        · simp [hf]
        · simp only
          exact dom_dictSet hl

theorem loopFrom_bisim {step : Nat → EvalSt → Option EvalSt}
    (hstep : ∀ j s1 s2, stRel s1 s2 →
      (step j s1 = none ∧ step j s2 = none) ∨
      ∃ t1 t2, step j s1 = some t1 ∧ step j s2 = some t2 ∧ stRel t1 t2) :
    ∀ (n k : Nat) (s1 s2 : EvalSt), stRel s1 s2 →
    (loopFrom step k n s1 = none ∧ loopFrom step k n s2 = none) ∨
    ∃ t1 t2, loopFrom step k n s1 = some t1 ∧ loopFrom step k n s2 = some t2 ∧ stRel t1 t2 := by
  intro n
  induction n with
  | zero =>
    intro k s1 s2 hrel
    exact Or.inr ⟨s1, s2, rfl, rfl, hrel⟩
  | succ n ih =>
    intro k s1 s2 hrel
    rcases hstep k s1 s2 hrel with ⟨h1, h2⟩ | ⟨t1, t2, h1, h2, hrel'⟩
    · rw [loopFrom_succ, loopFrom_succ, h1, h2]
      exact Or.inl ⟨rfl, rfl⟩
    · rw [loopFrom_succ, loopFrom_succ, h1, h2]
      exact ih (k + 1) t1 t2 hrel'

/-- The classification returned by color_guess is the same from any
two LETTER_STATUS states with the same key set, and so is whether it
raises at all. -/
theorem color_guess_bisim (g w : List Char) (ls1 ls2 : LSDict)
    (hdom : ∀ x, (dictGet ls1 x).isSome = (dictGet ls2 x).isSome) :
    (color_guess g w ls1).map Prod.fst = (color_guess g w ls2).map Prod.fst := by
  have hrel0 : stRel ⟨List.replicate WORD_LENGTH none, letter_freq w, ls1⟩
      ⟨List.replicate WORD_LENGTH none, letter_freq w, ls2⟩ := ⟨rfl, rfl, hdom⟩
  unfold color_guess
  rcases @loopFrom_bisim (pass1Step g w) (fun j s1 s2 hrel => pass1Step_bisim hrel)
      WORD_LENGTH 0 _ _ hrel0 with
    ⟨h1, h2⟩ | ⟨t1, t2, h1, h2, hrel1⟩
  · rw [h1, h2]
  · rw [h1, h2]
    rcases @loopFrom_bisim (pass2Step g w) (fun j s1 s2 hrel => pass2Step_bisim hrel)
        WORD_LENGTH 0 _ _ hrel1 with
      ⟨h3, h4⟩ | ⟨u1, u2, h3, h4, hrel2⟩
    · simp only [h3, h4]
    · simp only [h3, h4, Option.map_some]
      simp [hrel2.1]


/-! ### The round loop -/

theorem dictGet_map_nil_isSome : ∀ (L : List Char) (c : Char), c ∈ L →
    (dictGet (L.map (fun letter => (letter, ([] : StatusSpans)))) c).isSome = true := by
  intro L
  induction L with
  | nil =>
    intro c hc
    cases hc
  | cons a t ih =>
    intro c hc
    simp only [List.map_cons, dictGet]
    by_cases hca : c = a
    · rw [if_pos hca]
      rfl
    · rw [if_neg hca]
      exact ih c (by
        rcases List.mem_cons.mp hc with h | h
        · exact absurd h hca
        · exact h)

theorem dictGet_init_isSome {c : Char} (hc : c ∈ ALPHABET) :
    (dictGet LETTER_STATUS_init c).isSome = true :=
  dictGet_map_nil_isSome ALPHABET c hc

theorem gameLoop_run {wordle : List Char} {inputs : Nat → List Char}
    (hw : wordle.length = WORD_LENGTH) :
    ∀ (rem tries : Nat) (ls : LSDict),
    (∀ c, (dictGet ls c).isSome = (dictGet LETTER_STATUS_init c).isSome) →
    (∀ j, j < rem → (inputs (tries + j)).length = WORD_LENGTH ∧
      ∀ c ∈ inputs (tries + j), c ∈ ALPHABET) →
    ∃ b, gameLoop wordle inputs tries rem ls = some b ∧
      (b = true ↔ ∃ j, j < rem ∧ inputs (tries + j) = wordle) := by
  intro rem
  induction rem with
  | zero =>
    intro tries ls _ _
    refine ⟨false, rfl, ?_⟩
    simp
  | succ rem ih =>
    intro tries ls hdom hval
    obtain ⟨hlen0, halpha0⟩ := hval 0 (Nat.succ_pos rem)
    simp only [Nat.add_zero] at hlen0 halpha0
    have hgdom : ∀ c ∈ inputs tries, (dictGet ls c).isSome = true := by
      intro c hc
      rw [hdom c]
      exact dictGet_init_isSome (halpha0 c hc)
    obtain ⟨st, hcg, _⟩ := color_guess_run hlen0 hw hgdom
    by_cases heq : inputs tries = wordle
    · refine ⟨true, ?_, ?_⟩
      · simp only [gameLoop]
        rw [hcg]
        simp only
        rw [if_pos heq]
      · simp only [true_iff]
        exact ⟨0, Nat.succ_pos rem, heq⟩
    · have hdom' : ∀ c, (dictGet st.ls c).isSome = (dictGet LETTER_STATUS_init c).isSome := by
        intro c
        rw [color_guess_dom hcg c, hdom c]
      have hval' : ∀ j, j < rem → (inputs (tries + 1 + j)).length = WORD_LENGTH ∧
          ∀ c ∈ inputs (tries + 1 + j), c ∈ ALPHABET := by
        intro j hj
        have heqidx : tries + 1 + j = tries + (j + 1) := by omega
        rw [heqidx]
        exact hval (j + 1) (by omega)
      obtain ⟨b, hb, hiff⟩ := ih (tries + 1) st.ls hdom' hval'
      refine ⟨b, ?_, ?_⟩
      · simp only [gameLoop]
        rw [hcg]
        simp only
        rw [if_neg heq]
        exact hb
      · rw [hiff]
        constructor
        · rintro ⟨j, hj, hwj⟩
          refine ⟨j + 1, by omega, ?_⟩
          have heqidx : tries + (j + 1) = tries + 1 + j := by omega
          rw [heqidx]
          exact hwj
        · rintro ⟨j0, hj0, hwj⟩
          cases j0 with
          | zero => exact absurd hwj heq
          | succ j =>
            refine ⟨j, by omega, ?_⟩
            have heqidx : tries + 1 + j = tries + (j + 1) := by omega
            rw [heqidx]
            exact hwj

theorem gameLoop_congr {wordle : List Char} {inputs inputs' : Nat → List Char} :
    ∀ (rem tries : Nat) (ls : LSDict),
    (∀ j, j < rem → inputs' (tries + j) = inputs (tries + j)) →
    gameLoop wordle inputs' tries rem ls = gameLoop wordle inputs tries rem ls := by
  intro rem
  induction rem with
  | zero =>
    intro tries ls _
    rfl
  | succ rem ih =>
    intro tries ls h
    have h0 : inputs' tries = inputs tries := by
      have := h 0 (Nat.succ_pos rem)
      simpa using this
    simp only [gameLoop]
    rw [h0]
    cases hcg : color_guess (inputs tries) wordle ls with
    | none => rfl
    | some p =>
      obtain ⟨cls, ls'⟩ := p
      simp only
      by_cases heq : inputs tries = wordle
      · rw [if_pos heq, if_pos heq]
      · rw [if_neg heq, if_neg heq]
        refine ih (tries + 1) ls' (fun j hj => ?_)
        have heqidx : tries + 1 + j = tries + (j + 1) := by omega
        rw [heqidx]
        exact h (j + 1) (by omega)

theorem evalSeq_evolves {wordle : List Char} :
    ∀ (gs : List (List Char)) (ls ls' : LSDict),
    evalSeq wordle gs ls = some ls' → lsEvolves ls ls' := by
  intro gs
  induction gs with
  | nil =>
    intro ls ls' h
    simp only [evalSeq, Option.some_inj] at h
    rw [← h]
    exact lsEvolves_refl ls
  | cons ghead rest ih =>
    intro ls ls' h
    unfold evalSeq at h
    cases hcg : color_guess ghead wordle ls with
    | none =>
      rw [hcg] at h
      cases h
    | some p =>
      obtain ⟨cls, ls1⟩ := p
      rw [hcg] at h
      exact lsEvolves_trans (color_guess_evolves hcg) (ih ls1 ls' h)


/-! ### Small helpers for the claim statements -/

theorem statusRank_le_three (x : Option GuessColor) : statusRank x ≤ 3 := by
  cases x with
  | none => decide
  | some c => cases c <;> decide

theorem countP_not_add (p : Nat → Bool) : ∀ (l : List Nat),
    l.countP p + l.countP (fun i => !(p i)) = l.length := by
  intro l
  induction l with
  | nil => rfl
  | cons a t ih =>
    rw [List.countP_cons, List.countP_cons, List.length_cons]
    cases hpa : p a <;> simp [hpa] <;> omega

/-! ### The claims -/

/-- Claim C1: for every guess g and secret s, both strings of exactly
WORD_LENGTH uppercase letters, and every letter X, the number of
positions color_guess paints green (Correct) plus the number it paints
yellow (Present) for X is at most the number of occurrences of X in
the secret. -/
theorem C1_budget_bound (g w : List Char)
    (hg : g.length = WORD_LENGTH) (hw : w.length = WORD_LENGTH)
    (hgA : ∀ c ∈ g, c ∈ ALPHABET) (hwA : ∀ c ∈ w, c ∈ ALPHABET)
    (X : Char) (cls : List (Option GuessColor)) (ls' : LSDict)
    (h : color_guess g w LETTER_STATUS_init = some (cls, ls')) :
    countColor g cls X GuessColor.green + countColor g cls X GuessColor.yellow ≤
      occCount w X := by
  have hgdom : ∀ c ∈ g, (dictGet LETTER_STATUS_init c).isSome = true :=
    fun c hc => dictGet_init_isSome (hgA c hc)
  obtain ⟨st, hrun, hinv⟩ := color_guess_run hg hw hgdom
  have hclseq : st.cls = cls := congrArg Prod.fst (Option.some_inj.mp (hrun.symm.trans h))
  by_cases hXw : X ∈ w
  · obtain ⟨n, _, hsum⟩ := hinv.freq_some X hXw
    unfold consumedCP at hsum
    rw [hclseq] at hsum
    omega
  · have h0 := hinv.consumed_zero X hXw
    unfold consumedCP at h0
    rw [hclseq] at h0
    omega

theorem C1_budget_bound_witness :
    countColor "HEELS".toList
        [some GuessColor.gray, some GuessColor.gray, some GuessColor.green,
          some GuessColor.gray, some GuessColor.green] 'E' GuessColor.green +
      countColor "HEELS".toList
        [some GuessColor.gray, some GuessColor.gray, some GuessColor.green,
          some GuessColor.gray, some GuessColor.green] 'E' GuessColor.yellow ≤
      occCount "STEPS".toList 'E' :=
  C1_budget_bound "HEELS".toList "STEPS".toList rfl rfl (by decide) (by decide) 'E'
    [some GuessColor.gray, some GuessColor.gray, some GuessColor.green,
      some GuessColor.gray, some GuessColor.green] _ rfl

/-- Claim C8: for every guess g and secret s of equal length
WORD_LENGTH (and any LETTER_STATUS state holding all guessed letters),
position i is painted green by color_guess if and only if
g[i] == s[i]: the frequency-budget test of pass 1 never blocks an
exact match. -/
theorem C8_green_iff_exact (g w : List Char)
    (hg : g.length = WORD_LENGTH) (hw : w.length = WORD_LENGTH)
    (ls : LSDict) (hdom : ∀ c ∈ g, (dictGet ls c).isSome = true)
    (cls : List (Option GuessColor)) (ls' : LSDict)
    (h : color_guess g w ls = some (cls, ls')) (i : Nat) (hi : i < WORD_LENGTH) :
    cls[i]? = some (some GuessColor.green) ↔ g[i]? = w[i]? := by
  obtain ⟨st, hrun, hinv⟩ := color_guess_run hg hw hdom
  have hclseq : st.cls = cls := congrArg Prod.fst (Option.some_inj.mp (hrun.symm.trans h))
  rw [← hclseq]
  exact (hinv.green_iff i hi).trans (exactB_iff hg hi)

theorem C8_green_iff_exact_witness :
    ([some GuessColor.gray, some GuessColor.gray, some GuessColor.green,
        some GuessColor.gray, some GuessColor.green] :
          List (Option GuessColor))[4]? = some (some GuessColor.green) ↔
      "HEELS".toList[4]? = "STEPS".toList[4]? :=
  C8_green_iff_exact "HEELS".toList "STEPS".toList rfl rfl LETTER_STATUS_init
    (by decide)
    [some GuessColor.gray, some GuessColor.gray, some GuessColor.green,
      some GuessColor.gray, some GuessColor.green] _ rfl 4 (by decide)

/-- Claim C10: for every guess and secret of length WORD_LENGTH over
the 26-letter uppercase alphabet, color_guess (with its helper
letter_freq) completes without raising: no IndexError and no KeyError
(pass 2 lookups are guarded by membership, pass 1 lookups by the exact
match itself). -/
theorem C10_no_error (g w : List Char)
    (hg : g.length = WORD_LENGTH) (hw : w.length = WORD_LENGTH)
    (hgA : ∀ c ∈ g, c ∈ ALPHABET) (hwA : ∀ c ∈ w, c ∈ ALPHABET) :
    (color_guess g w LETTER_STATUS_init).isSome = true := by
  obtain ⟨st, hrun, _⟩ :=
    color_guess_run hg hw (fun c hc => dictGet_init_isSome (hgA c hc))
  rw [hrun]
  rfl

theorem C10_no_error_witness :
    (color_guess "HEELS".toList "STEPS".toList LETTER_STATUS_init).isSome = true :=
  C10_no_error "HEELS".toList "STEPS".toList rfl rfl (by decide) (by decide)

/-- Claim C9: the classification color_guess returns is deterministic
in (guess, secret): a call only changes which spans LETTER_STATUS
entries hold, never the key set, and from any two letter-status states
with the same key set the returned per-position classification is
identical — so identical inputs give identical classifications
regardless of prior calls in between. -/
theorem C9_deterministic (g w : List Char) :
    (∀ ls cls ls', color_guess g w ls = some (cls, ls') →
      ∀ c, (dictGet ls' c).isSome = (dictGet ls c).isSome) ∧
    (∀ ls1 ls2, (∀ c, (dictGet ls1 c).isSome = (dictGet ls2 c).isSome) →
      (color_guess g w ls1).map Prod.fst = (color_guess g w ls2).map Prod.fst) :=
  ⟨fun _ _ _ h => color_guess_dom h, fun ls1 ls2 hdom => color_guess_bisim g w ls1 ls2 hdom⟩

theorem C9_deterministic_witness :
    (color_guess "HEELS".toList "STEPS".toList
        (dictSet LETTER_STATUS_init 'Z' [GuessColor.gray])).map Prod.fst =
      (color_guess "HEELS".toList "STEPS".toList LETTER_STATUS_init).map Prod.fst :=
  (C9_deterministic "HEELS".toList "STEPS".toList).2 _ _ (fun c => by
    rw [dictGet_dictSet]
    by_cases hc : c = 'Z'
    · rw [if_pos hc, hc]
      decide
    · rw [if_neg hc])

/-- Claim C7: across any sequence of guesses evaluated in one round,
the rendered status of every letter in LETTER_STATUS never goes down
the order Unseen < Absent < Present < Correct, and once it is Correct
(green) it stays Correct. -/
theorem C7_monotone_status (wordle : List Char) (gs : List (List Char)) (ls ls' : LSDict)
    (h : evalSeq wordle gs ls = some ls') (c : Char) (spans spans' : StatusSpans)
    (h1 : dictGet ls c = some spans) (h2 : dictGet ls' c = some spans') :
    statusRank spans.getLast? ≤ statusRank spans'.getLast? ∧
      (spans.getLast? = some GuessColor.green →
        spans'.getLast? = some GuessColor.green) := by
  have hev := evalSeq_evolves gs ls ls' h
  obtain ⟨spans'', hd, hprop⟩ := hev c spans h1
  obtain rfl : spans'' = spans' := Option.some_inj.mp (hd.symm.trans h2)
  by_cases hne : spans = []
  · subst hne
    refine ⟨Nat.zero_le _, ?_⟩
    intro hcontra
    simp at hcontra
  · obtain ⟨_, hlast⟩ := hprop hne
    rcases hlast with heq | hgr
    · rw [heq]
      exact ⟨Nat.le_refl _, fun hh => hh⟩
    · rw [hgr]
      exact ⟨statusRank_le_three _, fun _ => rfl⟩

theorem C7_monotone_status_witness :
    statusRank ([] : StatusSpans).getLast? ≤
        statusRank ([GuessColor.gray, GuessColor.green] : StatusSpans).getLast? ∧
      (([] : StatusSpans).getLast? = some GuessColor.green →
        ([GuessColor.gray, GuessColor.green] : StatusSpans).getLast? =
          some GuessColor.green) :=
  C7_monotone_status "STEPS".toList ["HEELS".toList] LETTER_STATUS_init _ rfl 'E'
    [] [GuessColor.gray, GuessColor.green] (by decide) (by decide)

/-- Claim C5 counterexample: with letter E stored Absent (gray), the
guess SLEEP against secret ELBOW classifies E at position 2 Present
(yellow) — a candidate that outranks the stored Absent — yet the
stored rendered status of E stays Absent, because stylize_before puts
the new span beneath the existing one.  So the claimed rank-based
replacement (in particular Absent becoming Present) is false. -/
theorem C5_counterexample :
    (color_guess "SLEEP".toList "ELBOW".toList
        (dictSet LETTER_STATUS_init 'E' [GuessColor.gray])).map
      (fun p => (p.1[2]?, (dictGet p.2 'E').map (fun spans => spans.getLast?))) =
    some (some (some GuessColor.yellow), some (some GuessColor.gray)) := by
  decide

/-- Claim C5 amended: after one color_guess call the rendered status
of a letter either becomes Correct (green spans are appended on top),
or is exactly what it was before (yellow and gray spans are prepended
beneath every existing span), or the letter was previously Unseen
(empty span list).  A Present or Absent candidate therefore never
replaces an existing stored status. -/
theorem C5_update_semantics (g w : List Char) (ls : LSDict)
    (cls : List (Option GuessColor)) (ls' : LSDict)
    (h : color_guess g w ls = some (cls, ls')) (c : Char) (spans spans' : StatusSpans)
    (h1 : dictGet ls c = some spans) (h2 : dictGet ls' c = some spans') :
    spans'.getLast? = some GuessColor.green ∨ spans'.getLast? = spans.getLast? ∨
      spans = [] := by
  have hev := color_guess_evolves h
  obtain ⟨spans'', hd, hprop⟩ := hev c spans h1
  obtain rfl : spans'' = spans' := Option.some_inj.mp (hd.symm.trans h2)
  by_cases hne : spans = []
  · exact Or.inr (Or.inr hne)
  · rcases (hprop hne).2 with heq | hgr
    · exact Or.inr (Or.inl heq)
    · exact Or.inl hgr

theorem C5_update_semantics_witness :
    ([GuessColor.gray, GuessColor.yellow, GuessColor.gray] : StatusSpans).getLast? =
        some GuessColor.green ∨
      ([GuessColor.gray, GuessColor.yellow, GuessColor.gray] : StatusSpans).getLast? =
        ([GuessColor.gray] : StatusSpans).getLast? ∨
      ([GuessColor.gray] : StatusSpans) = [] :=
  C5_update_semantics "SLEEP".toList "ELBOW".toList
    (dictSet LETTER_STATUS_init 'E' [GuessColor.gray]) _ _ rfl 'E'
    [GuessColor.gray] [GuessColor.gray, GuessColor.yellow, GuessColor.gray]
    (by decide) (by decide)

/-- Claim C6 counterexample: color_guess is not free of shared-state
mutation — evaluating CRANE against CRANE changes the process-wide
LETTER_STATUS (the map it returns alongside the classification differs
from the initial one). -/
theorem C6_counterexample :
    (color_guess "CRANE".toList "CRANE".toList LETTER_STATUS_init).map Prod.snd ≠
      some LETTER_STATUS_init := by
  decide

/-- Claim C6 amended: color_guess computes its classification without
depending on the letter-status state, but it does mutate the
process-wide LETTER_STATUS: every successful evaluation styles each of
the WORD_LENGTH positions once, adding exactly WORD_LENGTH spans to
the map, so the map never comes back unchanged. -/
theorem C6_mutates_letter_status (g w : List Char) (ls : LSDict)
    (hg : g.length = WORD_LENGTH) (hw : w.length = WORD_LENGTH)
    (hgdom : ∀ c ∈ g, (dictGet ls c).isSome = true)
    (cls : List (Option GuessColor)) (ls' : LSDict)
    (h : color_guess g w ls = some (cls, ls')) :
    spanCount ls' = spanCount ls + WORD_LENGTH := by
  obtain ⟨st, hrun, hinv⟩ := color_guess_run hg hw hgdom
  have hlseq : st.ls = ls' := congrArg Prod.snd (Option.some_inj.mp (hrun.symm.trans h))
  have hc := hinv.ls_count
  rw [hlseq] at hc
  have hsum := countP_not_add (fun i => exactB g w i) (List.range WORD_LENGTH)
  rw [List.length_range] at hsum
  omega

theorem C6_mutates_letter_status_witness :
    (color_guess "CRANE".toList "CRANE".toList LETTER_STATUS_init).map
        (fun p => spanCount p.2) =
      some (spanCount LETTER_STATUS_init + WORD_LENGTH) :=
  congrArg some
    (C6_mutates_letter_status "CRANE".toList "CRANE".toList LETTER_STATUS_init rfl rfl
      (by decide)
      ((color_guess "CRANE".toList "CRANE".toList LETTER_STATUS_init).iget.1)
      ((color_guess "CRANE".toList "CRANE".toList LETTER_STATUS_init).iget.2) rfl)


/-- Claim C2: if a letter X occurs exactly once in the secret and
exactly twice in the guess, with one of the two guess occurrences at
the same position as X in the secret, color_guess paints the exact
occurrence green (Correct) and the other occurrence gray (Absent),
regardless of the order of the two occurrences; in particular secret
STEPS with guess HEELS classifies to
[Absent, Absent, Correct, Absent, Correct] (see the witness). -/
theorem C2_pass_priority (g w : List Char) (X : Char) (p q : Nat)
    (hg : g.length = WORD_LENGTH) (hw : w.length = WORD_LENGTH)
    (hgA : ∀ c ∈ g, c ∈ ALPHABET) (hwA : ∀ c ∈ w, c ∈ ALPHABET)
    (hwX : occCount w X = 1) (hgX : occCount g X = 2)
    (hp : g[p]? = some X) (hpw : w[p]? = some X)
    (hq : g[q]? = some X) (hqp : q ≠ p)
    (cls : List (Option GuessColor)) (ls' : LSDict)
    (h : color_guess g w LETTER_STATUS_init = some (cls, ls')) :
    cls[p]? = some (some GuessColor.green) ∧ cls[q]? = some (some GuessColor.gray) := by
  have hgdom : ∀ c ∈ g, (dictGet LETTER_STATUS_init c).isSome = true :=
    fun c hc => dictGet_init_isSome (hgA c hc)
  have hp5 : p < WORD_LENGTH := by
    obtain ⟨hlt, _⟩ := List.getElem?_eq_some_iff.mp hp
    omega
  have hq5 : q < WORD_LENGTH := by
    obtain ⟨hlt, _⟩ := List.getElem?_eq_some_iff.mp hq
    omega
  have hXw : X ∈ w := List.getElem?_mem hpw
  have hpex : exactB g w p = true := by
    rw [exactB_iff hg hp5, hp, hpw]
  have hqex : exactB g w q = false := by
    rcases Bool.eq_false_or_eq_true (exactB g w q) with htrue | hfalse
    · exfalso
      have hqw : w[q]? = some X := by
        rw [← (exactB_iff hg hq5).mp htrue]
        exact hq
      have h2le : 2 ≤ (List.range WORD_LENGTH).countP (fun j => decide (w[j]? = some X)) :=
        two_le_countP_range hq5 hp5 hqp (by simp [hqw]) (by simp [hpw])
      have hocc := occCount_eq_countP_range w X
      rw [hw] at hocc
      omega
    · exact hfalse
  obtain ⟨st1, h1, hinv1⟩ := pass1_loop hg hw hgdom WORD_LENGTH 0
    ⟨List.replicate WORD_LENGTH none, letter_freq w, LETTER_STATUS_init⟩ rfl
    (pass1_init g w LETTER_STATUS_init)
  have hinv2 := pass2_init hinv1
  obtain ⟨stq, hloopq, hinvq0⟩ := pass2_loop hg hw hgdom q 0 st1 (by omega) hinv2
  rw [Nat.zero_add] at hinvq0
  obtain ⟨stq1, hstepq, hinvq1, hframeq, hgray⟩ := pass2Step_inv hg hw hgdom hq5 hinvq0
  obtain ⟨n, hfX, hsumX⟩ := hinvq0.freq_some X hXw
  have hpgreen : stq.cls[p]? = some (some GuessColor.green) :=
    (hinvq0.green_iff p hp5).mpr hpex
  have hcons1 : 1 ≤ consumedCP g stq.cls X := by
    have hpos : 0 < countColor g stq.cls X GuessColor.green := by
      unfold countColor
      rw [List.countP_pos_iff]
      refine ⟨p, List.mem_range.mpr hp5, ?_⟩
      simp [hp, hpgreen]
    unfold consumedCP
    omega
  have hn0 : n = 0 := by omega
  subst hn0
  have hqgray : stq1.cls[q]? = some (some GuessColor.gray) :=
    hgray X hq hqex hXw hfX
  obtain ⟨stP1, stP2, hP1, hP2, hclsP, hlsP⟩ := color_guess_parts h
  have hst1eq : st1 = stP1 := Option.some_inj.mp (h1.symm.trans hP1)
  subst hst1eq
  have hq_split : q + (WORD_LENGTH - q) = WORD_LENGTH := by omega
  have happ := loopFrom_append (pass2Step g w) q (WORD_LENGTH - q) 0 st1
  rw [hq_split] at happ
  rw [happ] at hP2
  simp only [hloopq, Option.some_bind, Nat.zero_add] at hP2
  have hwl : WORD_LENGTH - q = (WORD_LENGTH - q - 1) + 1 := by omega
  rw [hwl, loopFrom_succ] at hP2
  rw [hstepq] at hP2
  have hfinalq : stP2.cls[q]? = stq1.cls[q]? :=
    pass2_loop_frame (WORD_LENGTH - q - 1) (q + 1) stq1 stP2 hP2 q (by omega)
  obtain ⟨stF, hrunF, hinvF⟩ := color_guess_run hg hw hgdom
  have hclsF : stF.cls = cls := congrArg Prod.fst (Option.some_inj.mp (hrunF.symm.trans h))
  constructor
  · rw [← hclsF]
    exact (hinvF.green_iff p hp5).mpr hpex
  · rw [← hclsP, hfinalq]
    exact hqgray

theorem C2_pass_priority_witness :
    (([some GuessColor.gray, some GuessColor.gray, some GuessColor.green,
        some GuessColor.gray, some GuessColor.green] :
          List (Option GuessColor))[2]? = some (some GuessColor.green) ∧
      ([some GuessColor.gray, some GuessColor.gray, some GuessColor.green,
        some GuessColor.gray, some GuessColor.green] :
          List (Option GuessColor))[1]? = some (some GuessColor.gray)) ∧
    (color_guess "HEELS".toList "STEPS".toList LETTER_STATUS_init).map Prod.fst =
      some [some GuessColor.gray, some GuessColor.gray, some GuessColor.green,
        some GuessColor.gray, some GuessColor.green] := by
  constructor
  · exact C2_pass_priority "HEELS".toList "STEPS".toList 'E' 2 1 rfl rfl
      (by decide) (by decide) (by decide) (by decide) (by decide) (by decide)
      (by decide) (by decide)
      [some GuessColor.gray, some GuessColor.gray, some GuessColor.green,
        some GuessColor.gray, some GuessColor.green] _ rfl
  · decide

/-- Claim C3: game returns True (Won) exactly when one of the first
TRIES_LIMIT validated guesses equals the secret word — in particular
an exact match on the TRIES_LIMIT-th attempt still wins, because the
equality test runs before the try counter is compared to the limit. -/
theorem C3_win_iff (wordle : List Char) (inputs : Nat → List Char)
    (hw : wordle.length = WORD_LENGTH)
    (hval : ∀ i, i < TRIES_LIMIT → (inputs i).length = WORD_LENGTH ∧
      ∀ c ∈ inputs i, c ∈ ALPHABET) :
    game wordle inputs = some true ↔ ∃ i, i < TRIES_LIMIT ∧ inputs i = wordle := by
  obtain ⟨b, hb, hiff⟩ := gameLoop_run hw TRIES_LIMIT 0 LETTER_STATUS_init
    (fun _ => rfl) (fun j hj => by simpa using hval j hj)
  unfold game
  rw [hb]
  constructor
  · intro hsome
    obtain ⟨j, hj, hwj⟩ := hiff.mp (Option.some_inj.mp hsome)
    exact ⟨j, hj, by simpa using hwj⟩
  · rintro ⟨i, hi, hwi⟩
    have hbt : b = true := hiff.mpr ⟨i, hi, by simpa using hwi⟩
    rw [hbt]

theorem C3_win_iff_witness :
    game "CRANE".toList (fun _ => "CRANE".toList) = some true :=
  (C3_win_iff "CRANE".toList (fun _ => "CRANE".toList) rfl
    (fun _ _ => ⟨rfl, by
      show ∀ c ∈ "CRANE".toList, c ∈ ALPHABET
      decide⟩)).mpr ⟨0, by decide, rfl⟩

/-- Claim C4: game returns False (Lost) exactly when all TRIES_LIMIT
validated guesses differ from the secret — it cannot end in Lost with
fewer submitted guesses — and the outcome only depends on the first
TRIES_LIMIT guesses, so the round never continues past the limit. -/
theorem C4_loss_iff (wordle : List Char) (inputs : Nat → List Char)
    (hw : wordle.length = WORD_LENGTH)
    (hval : ∀ i, i < TRIES_LIMIT → (inputs i).length = WORD_LENGTH ∧
      ∀ c ∈ inputs i, c ∈ ALPHABET) :
    (game wordle inputs = some false ↔ ∀ i, i < TRIES_LIMIT → inputs i ≠ wordle) ∧
    (∀ inputs' : Nat → List Char, (∀ i, i < TRIES_LIMIT → inputs' i = inputs i) →
      game wordle inputs' = game wordle inputs) := by
  constructor
  · obtain ⟨b, hb, hiff⟩ := gameLoop_run hw TRIES_LIMIT 0 LETTER_STATUS_init
      (fun _ => rfl) (fun j hj => by simpa using hval j hj)
    unfold game
    rw [hb]
    constructor
    · intro hsome i hi hcontra
      have hbf : b = false := Option.some_inj.mp hsome
      have hbt : b = true := hiff.mpr ⟨i, hi, by simpa using hcontra⟩
      rw [hbf] at hbt
      cases hbt
    · intro hall
      have hbf : b = false := by
        cases hbb : b with
        | false => rfl
        | true =>
          obtain ⟨j, hj, hwj⟩ := hiff.mp hbb
          exact absurd (by simpa using hwj) (hall j hj)
      rw [hbf]
  · intro inputs' hagree
    unfold game
    exact gameLoop_congr TRIES_LIMIT 0 LETTER_STATUS_init
      (fun j hj => by simpa using hagree j hj)

theorem C4_loss_iff_witness :
    game "CRANE".toList (fun _ => "BRACE".toList) = some false :=
  ((C4_loss_iff "CRANE".toList (fun _ => "BRACE".toList) rfl
      (fun _ _ => ⟨rfl, by
        show ∀ c ∈ "BRACE".toList, c ∈ ALPHABET
        decide⟩)).1).mpr (fun _ _ => by
    show ¬ "BRACE".toList = "CRANE".toList
    decide)

end Wordle
